import Mathlib

set_option maxRecDepth 10000

/-!
Verification of the gamegraphicsjs transform core against its specification.

Shallow embedding conventions, used throughout:
* Byte buffers (Uint8Array / plain JS arrays of bytes) are modelled as
  `List Nat`.  A store into a `Uint8Array` coerces its value with ToUint8,
  i.e. reduction modulo 256 (`u8` below); a store at an out-of-range index
  is silently discarded, which is exactly the behaviour of `List.set`; a
  read at an out-of-range index yields `undefined`, which every arithmetic
  context in the sources coerces to the same result as the value 0
  (`x >> n`, `x & n`, loop bounds), so out-of-range reads are modelled by
  `List.getD _ _ 0`.
* JS `number` variables that can go negative are modelled as `Int`.
* Functions that can `throw` return `Except String _` carrying the message.
-/

deriving instance DecidableEq for Except

namespace GameGraphics

/-- ToUint8 coercion applied by `Uint8Array` element stores and by
`RecordBuffer.put`. -/
def u8 (n : Nat) : Nat := n % 256

/-- `RecordBuffer` read of a `RecordType.int.u16le` field at byte offset
`off` (little endian). -/
def readU16le (content : List Nat) (off : Nat) : Nat :=
  content.getD off 0 + 256 * content.getD (off + 1) 0

/-- `RecordBuffer` write of a `u16le` field: two little-endian bytes. -/
def writeU16le (v : Nat) : List Nat :=
  [v % 256, v / 256 % 256]

/-- `RecordBuffer` write of an `s16le` field: the value taken modulo 2^16,
as two little-endian bytes. -/
def writeS16le (v : Int) : List Nat :=
  writeU16le (v.emod 65536).toNat

/-! ## Stamp (.stp) image handler — src/formats/img-stp.js

Constants from the source:
`MAX_RUNLENGTH_TRANSPARENCY = 0x7F`, `MAX_RUNLENGTH_OPAQUE = 0x3F`,
`MAX_DIRECT_SEQUENCE_LEN = 0x3F`, header sizes 10 (v1) / 8 (v2).
-/

/-- Decoder mode of `img_stp_common.readByVersion`: exactly one of the
flags `directCopySeq` / `repeatSeq` may be live across loop iterations
(`transparencySeq` is set and consumed within a single pass, see
`stpLoop`).  The direct-copy counter is an `Int`: the source decrements it
with `--count == 0`, so a starting count of 0 falls through to -1 and
never terminates the copy by count (it only stops on buffer exhaustion). -/
inductive StpState where
  | seek : StpState
  | direct (count : Int) : StpState
  | rep (count : Nat) : StpState
  deriving Repr, DecidableEq

/-- The decode loop of `img_stp_common.readByVersion` (img-stp.js lines
171-222), operating on the raster bytes that follow the header.
`outLen` is `width * height`; `acc` is the filled prefix of the output
buffer (every store in the source is guarded by `outputPos < out.length`,
so the output is exactly the list of stores in order).

The source defers a transparency run to the following loop iteration via
the `transparencySeq` flag; because the loop condition
`outputPos < out.length` already held when the control byte was read and
the fill clears the flag unconditionally (writing
`min(count, remaining space)` sentinel pixels), that iteration is inlined
here into the control-byte step.  The transparent sentinel is
`metadata().limits.transparentIndex = 255`. -/
def stpLoop (outLen : Nat) : StpState → List Nat → List Nat →
    Except String (List Nat)
  | _, [], acc =>
    -- loop exit with input exhausted (a transparency fill never survives
    -- an iteration, so `inputPos < content.main.length` is the loop test)
    if acc.length < outLen then
      .error "Ran out of input data before full frame size was constructed."
    else
      .ok acc
  | st, b :: rest, acc =>
    if outLen ≤ acc.length then
      -- loop exits because the frame is full, with input left over
      .error "Extraneous input data; frame is complete with input data remaining."
    else
      match st with
      | .direct count =>
        -- out[outputPos++] = content.main[inputPos]; if (--count == 0) ...
        let acc := acc ++ [u8 b]
        if count - 1 = 0 then stpLoop outLen .seek rest acc
        else stpLoop outLen (.direct (count - 1)) rest acc
      | .rep count =>
        -- repeatedByte = content.main[inputPos]; write while output has
        -- room and count > 0
        stpLoop outLen .seek rest
          (acc ++ List.replicate (min count (outLen - acc.length)) (u8 b))
      | .seek =>
        if b &&& 0x80 = 0x80 then
          -- transparency run: count = b & 0x7F sentinel pixels (or fewer
          -- if the output fills first)
          stpLoop outLen .seek rest
            (acc ++ List.replicate (min (b &&& 0x7F) (outLen - acc.length)) 255)
        else if b &&& 0xC0 = 0x40 then
          stpLoop outLen (.rep (b &&& 0x3F)) rest acc
        else
          stpLoop outLen (.direct (b : Int)) rest acc

/-- The `Image` produced by `readByVersion`: header fields plus a list of
frames, each a pixel buffer. -/
structure StpImage where
  width : Nat
  height : Nat
  hotspotX : Int
  hotspotY : Int
  frames : List (List Nat)
  deriving Repr, DecidableEq

/-- `s16le` read: a `u16le` value reinterpreted as a signed 16-bit int. -/
def readS16le (content : List Nat) (off : Nat) : Int :=
  let v := readU16le content off
  if v < 32768 then (v : Int) else (v : Int) - 65536

/-- Header size: `STP_V1_HEADER_SIZE_BYTES = 10`,
`STP_V2_HEADER_SIZE_BYTES = 8`. -/
def stpHeaderSize (version : Nat) : Nat :=
  if version = 1 then 10 else 8

/-- `img_stp_common.readByVersion(content, stpVersion)` (img-stp.js lines
143-243).  Version 1 first skips the 16-bit marker word, then both
versions read the `width/height/hotspotX/hotspotY` header and run the
RLE decode loop over the remaining bytes. -/
def stpReadByVersion (content : List Nat) (version : Nat) :
    Except String StpImage :=
  if version ≠ 1 ∧ version ≠ 2 then
    .error "STP version must be either 1 or 2."
  else
    let base := if version = 1 then 2 else 0
    let width := readU16le content base
    let height := readU16le content (base + 2)
    let hotspotX := readS16le content (base + 4)
    let hotspotY := readS16le content (base + 6)
    (stpLoop (width * height) .seek (content.drop (stpHeaderSize version)) []).map
      fun out =>
        { width := width, height := height,
          hotspotX := hotspotX, hotspotY := hotspotY, frames := [out] }

/-- Input to `writeByVersion`: an `Image` whose frames carry no width or
height of their own, so the frame dimensions fall back to the image's
(`frame.width === undefined ? image.width : frame.width`). -/
structure StpWriteImage where
  width : Nat
  height : Nat
  hotspotX : Int
  hotspotY : Int
  frames : List (List Nat)
  deriving Repr, DecidableEq

/-- `buffer.put(bytes)`: RecordBuffer stores into a Uint8Array, coercing
each value with ToUint8. -/
def put (bytes : List Nat) : List Nat := bytes.map u8

/-- `pixels.slice(a, a + n)` as used by the Stamp encoder. -/
def sliceN (pixels : List Nat) (a n : Nat) : List Nat :=
  (pixels.drop a).take n

/-- The write-side sentinel: the source reads
`this.metadata().transparentIndex` (img-stp.js line 260), but `metadata()`
stores the sentinel under `limits.transparentIndex`, so this property
lookup yields `undefined` — modelled as `none`.  (The read side correctly
uses `this.metadata().limits.transparentIndex = 255`.)  Consequently the
comparison `runColor == transparentIndex` below is `some _ == none`,
which is always false, exactly as `number == undefined` is in JS. -/
def stpWriteTransparentIndex : Option Nat := none

/-- The encode loop of `img_stp_common.writeByVersion` (img-stp.js lines
284-394), returning the raster bytes emitted from the current loop entry
onwards (each `buffer.put` becomes a list prepended to the recursive
call's result).  `n` counts the loop iterations still to run: the loop
body runs once per pixel, so `n = pixels.length - pixelIndex` at every
call, and `n = 0` is the loop exit followed by the final-flush block
(lines 382-394).  `runColor` is `Option Nat` because the source
initialises it to `undefined` and resets it to `undefined` after a
run-length flush; a JS `==` against it is false for every pixel value. -/
def stpEncLoop (pixels : List Nat) :
    Nat → Nat → Nat → Option Nat → Nat → Bool → Bool → List Nat
  | 0, _, runStartIndex, runColor, runLength, _, runSeq =>
    -- while-loop exit: flush any unfinished sequence (lines 382-394)
    if 0 < runLength then
      if runSeq then
        let ctrlBits := if runColor = stpWriteTransparentIndex then 0x80 else 0x40
        let countMask := if runColor = stpWriteTransparentIndex then 0x7F else 0x3F
        put [ctrlBits ||| (runLength &&& countMask), runColor.getD 0]
      else
        put [runLength &&& 0x3F] ++ put (sliceN pixels runStartIndex runLength)
    else
      []
  | n + 1, pixelIndex, runStartIndex, runColor, runLength, directSeq, runSeq =>
    let p := pixels.getD pixelIndex 0
    if runColor = some p then
      -- this pixel's colour is the same as the previous pixel's
      let runLength := runLength + 1
      if directSeq then
        -- close the direct-copy sequence at pixelIndex - 2 (lines 294-304)
        put [(runLength - 2) &&& 0x3F] ++
          put (sliceN pixels runStartIndex (runLength - 2)) ++
          stpEncLoop pixels n (pixelIndex + 1) (pixelIndex - 1) runColor 2
            false true
      else if runColor = stpWriteTransparentIndex ∧ runLength = 0x7F then
        -- transparency-run cap (lines 306-315); unreachable, see
        -- stpWriteTransparentIndex
        put [0xFF] ++
          stpEncLoop pixels n (pixelIndex + 1) (pixelIndex + 1) none 0
            directSeq true
      else if runLength = 0x3F then
        -- opaque-run cap (lines 317-329)
        put [0x7F, runColor.getD 0] ++
          stpEncLoop pixels n (pixelIndex + 1) (pixelIndex + 1) none 0
            directSeq false
      else
        stpEncLoop pixels n (pixelIndex + 1) runStartIndex runColor runLength
          directSeq true
    else
      -- this pixel's colour doesn't match the previous
      if directSeq then
        let runLength := runLength + 1
        if runLength = 0x3F then
          -- direct-copy cap (lines 340-351)
          put [0x3F] ++ put (sliceN pixels runStartIndex runLength) ++
            stpEncLoop pixels n (pixelIndex + 1) (pixelIndex + 1) (some p) 0
              false runSeq
        else
          stpEncLoop pixels n (pixelIndex + 1) runStartIndex (some p) runLength
            true runSeq
      else if runSeq then
        -- a colour run has ended: flush it (lines 352-363)
        let ctrlBits := if runColor = stpWriteTransparentIndex then 0x80 else 0x40
        let countMask := if runColor = stpWriteTransparentIndex then 0x7F else 0x3F
        put [ctrlBits ||| (runLength &&& countMask), runColor.getD 0] ++
          stpEncLoop pixels n (pixelIndex + 1) pixelIndex (some p) 1
            false false
      else
        let runLength := runLength + 1
        stpEncLoop pixels n (pixelIndex + 1) runStartIndex (some p) runLength
          (decide (1 < runLength)) runSeq

/-- `img_stp_common.writeByVersion(image, stpVersion)` (img-stp.js lines
245-402).  The result is the `content.main` byte buffer; `warnings` is
always the empty list and is omitted. -/
def stpWriteByVersion (image : StpWriteImage) (version : Nat) :
    Except String (List Nat) :=
  if version ≠ 1 ∧ version ≠ 2 then
    .error "STP version must be either 1 or 2."
  else if image.frames.length ≠ 1 then
    .error "Can only write one frame to this format."
  else
    let pixels := image.frames.headD []
    let header :=
      (if version = 1 then put (writeU16le 1) else []) ++
      put (writeU16le image.width) ++ put (writeU16le image.height) ++
      put (writeS16le image.hotspotX) ++ put (writeS16le image.hotspotY)
    .ok (header ++ stpEncLoop pixels pixels.length 0 0 none 0 false false)

/-! ## Planar pixel conversion — src/util/image-planar.js

Both functions allocate `new Uint8Array(len)` where `len` is computed by
a division; when that division is not exact (or divides by zero) the
typed-array constructor throws `RangeError: invalid typed array length`,
modelled by the divisibility guards below.  `out[i] |= v` on a
`Uint8Array` reads the slot (an out-of-range read gives `undefined`,
which `|` coerces like 0), ORs, and stores (an out-of-range store is
discarded — the behaviour of `List.set`). -/

/-- The bit extraction and plane value of one `fromPlanar` inner-loop
iteration (image-planar.js lines 63-66): the bit for pixel `b` is taken
from `content[i + (b / 8)]` at position `byteOrderMSB ? 7 - b % 8` and,
when set, contributes `planeValues[plane]`. -/
def fpVal (content : List Nat) (planeValues : List Nat) (byteOrderMSB : Bool)
    (i plane b : Nat) : Nat :=
  if (content.getD (i + b / 8) 0 >>>
      (if byteOrderMSB then 7 - b % 8 else b % 8)) &&& 1 = 1 then
    planeValues.getD plane 0
  else 0

/-- The inner pixel loop of `fromPlanar` (image-planar.js lines 62-68):
`out[outpos + b] |= value` for `b` below `planeWidth` (the loop bound is
passed as `n`). -/
def fpWrite (content : List Nat) (planeValues : List Nat)
    (byteOrderMSB : Bool) (i plane outpos : Nat) (out : List Nat)
    (n : Nat) : List Nat :=
  (List.range n).foldl
    (fun out b =>
      out.set (outpos + b) (out.getD (outpos + b) 0 |||
        fpVal content planeValues byteOrderMSB i plane b))
    out

/-- One iteration of the `fromPlanar` outer loop (image-planar.js lines
60-70) at chunk index `c` (the loop advances `i` by `widthBytes` each
round, so `i = c * widthBytes` and `plane = (i / widthBytes) %
planeCount = c % planeCount`); the output position advances by
`planeWidth` after the last plane of a group. -/
def fpChunk (content : List Nat) (planeCount widthBytes planeWidth : Nat)
    (planeValues : List Nat) (byteOrderMSB : Bool)
    (s : List Nat × Nat) (c : Nat) : List Nat × Nat :=
  let plane := c % planeCount
  let out := fpWrite content planeValues byteOrderMSB (c * widthBytes) plane
    s.2 s.1 planeWidth
  if plane = planeCount - 1 then (out, s.2 + planeWidth) else (out, s.2)

/-- `fromPlanar({content, planeCount, planeWidth, planeValues,
byteOrderMSB})` (image-planar.js lines 47-73). -/
def fromPlanar (content : List Nat) (planeCount planeWidth : Nat)
    (planeValues : List Nat) (byteOrderMSB : Bool) :
    Except String (List Nat) :=
  if content.length = 0 then
    .ok []
  else if ¬ (planeCount ∣ content.length * 8) then
    .error "RangeError: invalid typed array length"
  else
    let widthBytes := (planeWidth + 7) / 8
    if widthBytes = 0 then
      .error ("fromPlanar() planeWidth=" ++ toString planeWidth ++ " too small!")
    else
      let numChunks := (content.length + widthBytes - 1) / widthBytes
      .ok ((List.range numChunks).foldl
        (fpChunk content planeCount widthBytes planeWidth planeValues
          byteOrderMSB)
        (List.replicate (content.length * 8 / planeCount) 0, 0)).1

/-- The plane value of one `toPlanar` inner-loop iteration
(image-planar.js line 99): set bit `pixelBit` when the pixel carries the
plane's bit (`(data & planeValues[b]) && (1 << pixelBit)`). -/
def tpVal (planeValues : List Nat) (data pixelBit b : Nat) : Nat :=
  if data &&& planeValues.getD b 0 ≠ 0 then 1 <<< pixelBit else 0

/-- The inner plane loop of `toPlanar` (image-planar.js lines 98-101):
`out[outpos + pixelByte + b * widthBytes] |= val` for `b` below
`planeCount` (the loop bound is passed as `n`). -/
def tpWrite (planeValues : List Nat) (widthBytes data pixelBit : Nat)
    (outpos pixelByte : Nat) (out : List Nat) (n : Nat) : List Nat :=
  (List.range n).foldl
    (fun out b =>
      out.set (outpos + pixelByte + b * widthBytes)
        (out.getD (outpos + pixelByte + b * widthBytes) 0 |||
          tpVal planeValues data pixelBit b))
    out

/-- One iteration of the `toPlanar` outer loop (image-planar.js lines
94-103) at pixel index `i`; the output position advances by
`planeCount * widthBytes` after the last pixel of each `planeWidth`
row. -/
def tpPixel (content : List Nat) (planeCount widthBytes planeWidth : Nat)
    (planeValues : List Nat) (byteOrderMSB : Bool)
    (s : List Nat × Nat) (i : Nat) : List Nat × Nat :=
  let pixelBit := if byteOrderMSB then 7 - i % 8 else i % 8
  let out := tpWrite planeValues widthBytes (content.getD i 0) pixelBit
    s.2 (i / 8 % widthBytes) s.1 planeCount
  if i % planeWidth = planeWidth - 1 then
    (out, s.2 + planeCount * widthBytes)
  else (out, s.2)

/-- `toPlanar({content, planeCount, planeWidth, planeValues,
byteOrderMSB})` (image-planar.js lines 84-106).  There is no
`widthBytes <= 0` guard on this direction: when `widthBytes = 0` the JS
expression `((i / 8) >> 0) % widthBytes` is `NaN`, a typed-array store at
a `NaN` index is ignored, and `(i % planeWidth) === planeWidth - 1` is
never true, so the zero-filled output buffer is returned unchanged —
modelled by the early return below. -/
def toPlanar (content : List Nat) (planeCount planeWidth : Nat)
    (planeValues : List Nat) (byteOrderMSB : Bool) :
    Except String (List Nat) :=
  if content.length = 0 then
    .ok []
  else if ¬ (8 ∣ content.length * planeCount) then
    .error "RangeError: invalid typed array length"
  else
    let out0 : List Nat := List.replicate (content.length * planeCount / 8) 0
    let widthBytes := (planeWidth + 7) / 8
    if widthBytes = 0 then
      .ok out0
    else
      .ok ((List.range content.length).foldl
        (tpPixel content planeCount widthBytes planeWidth planeValues
          byteOrderMSB)
        (out0, 0)).1

/-! ## VGA 8-bit palette — src/formats/pal-vga-8bit.js -/

/-- The `{valid, reason}` record returned by `identify`. -/
structure IdentifyResult where
  valid : Bool
  reason : String
  deriving Repr, DecidableEq

/-- `pal_vga_8bit.identify(content)` (pal-vga-8bit.js lines 52-92): exact
length 768, first colour black, and at least one component above 64
(6-bit palettes never exceed 64).  The `is8bit` scan with early break is
`List.any`.  The function is total: no input makes it throw. -/
def palVga8bitIdentify (content : List Nat) : IdentifyResult :=
  if content.length ≠ 768 then
    { valid := false,
      reason := "File length " ++ toString content.length ++ " is not 768." }
  else if content.getD 0 0 ≠ 0 ∨ content.getD 1 0 ≠ 0 ∨ content.getD 2 0 ≠ 0 then
    { valid := false, reason := "First colour isn't black." }
  else if content.any (fun b => 64 < b) then
    { valid := true, reason := "Correct file size and starts with black." }
  else
    { valid := false,
      reason := "No colour values are > 64, unlikely to be an 8-bit palette." }

/-! ## Frame composition — src/util/frame-compose.js -/

/-- A palette: a list of RGBA entries.  Each entry is itself a list of
channel values; an entry shorter than four elements has
`palette[i][3] === undefined` and is rejected by `frameCompose` (a dense
`Palette` cannot have `palette[i] === undefined` holes, so only the
alpha check is reachable in this model). -/
abbrev Palette := List (List Nat)

/-- A `Frame` as consumed/produced by `frameCompose`: optional own
dimensions (falling back to the caller-supplied defaults), a pixel
buffer, and an optional palette. -/
structure CFrame where
  width : Option Nat
  height : Option Nat
  pixels : List Nat
  palette : Option Palette
  deriving Repr, DecidableEq

/-- One entry of the `composition` array passed to `frameCompose`. -/
structure ComposeEntry where
  frame : CFrame
  offsetX : Nat
  offsetY : Nat
  deriving Repr, DecidableEq

/-- The `options` object passed to `frameCompose`.  `frameFromTileset`
(frame-from_tileset.js lines 62-67) passes `bg` and `palette` along with
the two defaults; `frameCompose` itself reads only `defaultWidth` and
`defaultHeight`. -/
structure ComposeOptions where
  defaultWidth : Nat
  defaultHeight : Nat
  bg : Option Nat := none
  palette : Option Palette := none
  deriving Repr, DecidableEq

/-- JS `a || b` for an optional numeric field: `undefined` and `0` are
falsy, so both fall back to the default. -/
def jsOr (x : Option Nat) (dflt : Nat) : Nat :=
  match x with
  | some v => if v = 0 then dflt else v
  | none => dflt

/-- The background scan of `frameCompose` (frame-compose.js lines 56-70):
`bg` starts at 0; with a palette present, the first entry whose alpha is
0 becomes the background (invalid entries before it throw). -/
def composeBgScan : List (List Nat) → Nat → Except String Nat
  | [], _ => .ok 0
  | e :: rest, i =>
    if e.length ≤ 3 then
      .error ("Palette entry " ++ toString i ++ " is invalid.")
    else if e.getD 3 0 = 0 then
      .ok i
    else
      composeBgScan rest (i + 1)

/-- `bg` as computed by `frameCompose` from `composition[0].frame.palette`
(the supplied `options` play no part in it). -/
def composeBackground (palette : Option Palette) : Except String Nat :=
  match palette with
  | none => .ok 0
  | some pal => composeBgScan pal 0

/-- `new Uint8Array(buffer, byteOffset + off, len)` over a frame's pixel
buffer: throws `RangeError` when the view exceeds the buffer. -/
def typedSub (src : List Nat) (off len : Nat) : Except String (List Nat) :=
  if off + len ≤ src.length then .ok ((src.drop off).take len)
  else .error "RangeError: invalid typed array length"

/-- `dst.set(src, off)` on a `Uint8Array`: throws `RangeError` when the
source does not fit, otherwise overwrites `dst[off .. off+|src|)`. -/
def typedSet (dst src : List Nat) (off : Nat) : Except String (List Nat) :=
  if off + src.length ≤ dst.length then
    .ok (dst.take off ++ src ++ dst.drop (off + src.length))
  else .error "RangeError: offset is out of bounds"

/-- The per-entry blit of `frameCompose` (frame-compose.js lines 75-89):
row `y` copies `frameWidth` pixels from source offset `y * frameWidth`
to destination offset `(offsetY + y) * width + offsetX`.  Recursion on
the rows still to copy (`y = frameHeight - rows`). -/
def blitRows (c : ComposeEntry) (canvasWidth frameWidth : Nat) :
    Nat → Nat → List Nat → Except String (List Nat)
  | _, 0, pixels => .ok pixels
  | y, rows + 1, pixels => do
    let bufSrc ← typedSub c.frame.pixels (y * frameWidth) frameWidth
    let pixels ← typedSet pixels bufSrc ((c.offsetY + y) * canvasWidth + c.offsetX)
    blitRows c canvasWidth frameWidth (y + 1) rows pixels

/-- `frameCompose(composition, options)` (frame-compose.js lines 45-98).
The canvas size is the bounding box of all entries; the canvas is filled
with the background index (a `Uint8Array.fill`, hence the `u8`), then
every entry's full rectangle is copied over the top.  An empty
composition throws (`composition[0].frame` is a property access on
`undefined`). -/
def frameCompose (composition : List ComposeEntry)
    (options : ComposeOptions) : Except String CFrame :=
  let width := composition.foldl
    (fun w c => max w (c.offsetX + jsOr c.frame.width options.defaultWidth)) 0
  let height := composition.foldl
    (fun h c => max h (c.offsetY + jsOr c.frame.height options.defaultHeight)) 0
  match composition.head? with
  | none => .error "TypeError: Cannot read properties of undefined"
  | some c0 => do
    let bg ← composeBackground c0.frame.palette
    let init : List Nat := List.replicate (width * height) (u8 bg)
    let pixels ← composition.foldlM
      (fun px c =>
        blitRows c width (jsOr c.frame.width options.defaultWidth) 0
          (jsOr c.frame.height options.defaultHeight) px)
      init
    .ok { width := some width, height := some height,
          pixels := pixels, palette := c0.frame.palette }

/-! ## Delta (.del) image handler — src/formats/img-del.js

Constants from the source: `PAL_TRANSPARENCY_INDEX = 0xFF`,
`MAX_RUNLENGTH_TRANSPARENCY = 0xFF`, `MAX_RUNLENGTH_6BIT = 0x3F`,
`DEL_HEADER_SIZE_BYTES = 4`. -/

/-- The fixed nibble-indexed delta table. -/
def deltaTable : List Int := [0, 1, 2, 3, 4, 5, 6, 7, -8, -7, -6, -5, -4, -3, -2, -1]

/-- An `Image` as read/written by `Image_Del` (frames carry no dimensions
of their own, so `write` falls back to the image's). -/
structure DelImage where
  width : Nat
  height : Nat
  frames : List (List Nat)
  deriving Repr, DecidableEq

/-- `n` stores of the value `v` at consecutive output positions
(`out[outputPos++] = v` loops); stores past the end of the buffer are
discarded but still advance `outputPos` (tracked by the callers). -/
def delWriteOut (out : List Nat) (pos n v : Nat) : List Nat :=
  (List.range n).foldl (fun o j => o.set (pos + j) v) out

/-- The delta-chain inner loop of `Image_Del.read` (img-del.js lines
176-193), entered after the leading literal byte has been emitted.
`r` is `length - sequenceCount`, the number of chain pixels still owed;
each iteration consumes one input byte and emits its high nibble's delta
and, when still needed, its low nibble's.  Returns
`(out, outputPos, inputPos)`. -/
def delChainLoop (content : List Nat) :
    Nat → Nat → Int → List Nat → Nat → (List Nat × Nat × Nat)
  | 0, inputPos, _, out, outputPos => (out, outputPos, inputPos)
  | r + 1, inputPos, databyte, out, outputPos =>
    let byte := content.getD inputPos 0
    let databyte := databyte + deltaTable.getD (byte >>> 4) 0
    let out := out.set outputPos (databyte.emod 256).toNat
    let outputPos := outputPos + 1
    if r = 0 then
      -- sequence complete; the second nibble is wasted
      (out, outputPos, inputPos + 1)
    else
      let databyte := databyte + deltaTable.getD (byte &&& 0x0F) 0
      let out := out.set outputPos (databyte.emod 256).toNat
      delChainLoop content (r - 1) (inputPos + 1) databyte out (outputPos + 1)

/-- The main decode loop of `Image_Del.read` (img-del.js lines 129-197).
Every iteration consumes at least the command byte, so the loop runs at
most `content.length` times; `fuel` is initialised to that bound and
cannot reach 0 with input remaining.  Returns `(out, outputPos,
inputPos)`. -/
def delLoop (content : List Nat) :
    Nat → Nat → List Nat → Nat → (List Nat × Nat × Nat)
  | 0, inputPos, out, outputPos => (out, outputPos, inputPos)
  | fuel + 1, inputPos, out, outputPos =>
    if inputPos < content.length then
      let cmdbyte := content.getD inputPos 0
      let inputPos := inputPos + 1
      if cmdbyte &&& 0x01 = 1 then
        let databyte := content.getD inputPos 0
        let inputPos := inputPos + 1
        if cmdbyte &&& 0x02 = 2 then
          -- single byte copy (low two bits 11)
          delLoop content fuel inputPos (out.set outputPos (u8 databyte))
            (outputPos + 1)
        else
          -- repeat byte (low two bits 01), count = cmdbyte >> 2
          delLoop content fuel inputPos
            (delWriteOut out outputPos (cmdbyte >>> 2) (u8 databyte))
            (outputPos + (cmdbyte >>> 2))
      else if cmdbyte &&& 0x02 = 2 then
        -- transparency run (low two bits 10); count from the next byte
        -- when the top six bits are zero
        let lp := if cmdbyte >>> 2 = 0 then (content.getD inputPos 0, inputPos + 1)
          else (cmdbyte >>> 2, inputPos)
        delLoop content fuel lp.2 (delWriteOut out outputPos lp.1 0xFF)
          (outputPos + lp.1)
      else
        -- delta encoding sequence (low two bits 00)
        let length := cmdbyte >>> 2
        if 0 < length then
          let databyte := content.getD inputPos 0
          let inputPos := inputPos + 1
          let out := out.set outputPos (u8 databyte)
          let s := delChainLoop content (length - 1) inputPos (databyte : Int)
            out (outputPos + 1)
          delLoop content fuel s.2.2 s.1 s.2.1
        else
          delLoop content fuel inputPos out outputPos
    else (out, outputPos, inputPos)

/-- `Image_Del.read(content)` (img-del.js lines 120-216). -/
def delRead (content : List Nat) : Except String DelImage :=
  let width := readU16le content 0
  let height := readU16le content 2
  let s := delLoop content content.length 4 (List.replicate (width * height) 0) 0
  if s.2.2 < content.length then
    .error "Extraneous input data; frame is complete with input data remaining."
  else if s.2.1 < width * height then
    .error "Ran out of input data before full frame size was constructed."
  else
    .ok { width := width, height := height, frames := [s.1] }

/-- The nibble-packing loop of `Image_Del.writeDeltaSeq` (img-del.js
lines 223-233) applied to the delta values after the leading literal:
pairs are packed high-nibble-first, and with an even run length the last
value occupies a byte's high nibble alone. -/
def packNibbles : List Nat → List Nat
  | a :: b :: rest => u8 ((a <<< 4) ||| b) :: packNibbles rest
  | [a] => [u8 (a <<< 4)]
  | [] => []

/-- `Image_Del.writeDeltaSeq(buffer, deltaRunVals)` (img-del.js lines
218-234). -/
def writeDeltaSeq (vals : List Nat) : List Nat :=
  u8 (vals.length <<< 2) :: u8 (vals.getD 0 0) :: packNibbles (vals.drop 1)

/-- `Image_Del.writeSingleColorRun(buffer, color, length)` (img-del.js
lines 236-265). -/
def writeSingleColorRun (color len : Nat) : Except String (List Nat) :=
  if color = 0xFF then
    if len ≤ 0x3F then .ok [u8 (0x02 ||| (len <<< 2))]
    else if len ≤ 0xFF then .ok [0x02, u8 len]
    else .error "Transparency run exceeds maximum."
  else
    if len ≤ 0x3F then .ok [u8 (0x01 ||| (len <<< 2)), u8 color]
    else .error "Single-color run exceeds maximum."

/-- Encoder state of `Image_Del.write`: the emitted raster bytes plus the
mutable locals of lines 279-283.  `lastPixelInSequence` starts
`undefined` and JS `undefined == false` is false, hence `Option Bool`. -/
structure DelWState where
  buf : List Nat
  runStartIndex : Option Nat
  lastColor : Option Nat
  deltaRunVals : List Nat
  lastPixelInSequence : Option Bool
  deriving Repr, DecidableEq

/-- One iteration of the `Image_Del.write` loop (img-del.js lines
290-406) at `pixelIndex = i`. -/
def delWriteStep (pixels : List Nat) (s : DelWState) (i : Nat) :
    Except String DelWState :=
  let p := pixels.getD i 0
  if s.lastColor = some p then
    -- this pixel's colour is the same as the previous pixel's
    match s.runStartIndex with
    | some rs =>
      -- a single-colour run is in progress: flush it at the cap
      let runLength := i - rs + 1
      if (s.lastColor = some 0xFF ∧ runLength = 0xFF) ∨
          (s.lastColor ≠ some 0xFF ∧ runLength = 0x3F) then do
        let bytes ← writeSingleColorRun p runLength
        .ok { s with buf := s.buf ++ bytes, runStartIndex := none,
                     lastColor := none }
      else
        .ok s
    | none =>
      if s.deltaRunVals ≠ [] then
        -- continue the running delta sequence with a 0 delta
        let vals := s.deltaRunVals ++ [0]
        if vals.length = 0x3F then
          .ok { s with buf := s.buf ++ writeDeltaSeq vals,
                       deltaRunVals := [], lastPixelInSequence := some true }
        else
          .ok { s with deltaRunVals := vals,
                       lastPixelInSequence := some true }
      else if i < pixels.length - 1 ∧ pixels.getD (i + 1) 0 = p then
        -- at least three consecutive identical pixels: start a run
        .ok { s with lastPixelInSequence := some true,
                     runStartIndex := some (i - 1) }
      else
        -- only two alike: start a delta sequence instead
        .ok { s with deltaRunVals := [p, 0],
                     lastPixelInSequence := some true }
  else
    -- this pixel's colour doesn't match the previous
    match s.runStartIndex with
    | some rs => do
      -- end the run of identical pixels
      let bytes ← writeSingleColorRun (s.lastColor.getD 0) (i - rs)
      .ok { s with buf := s.buf ++ bytes, runStartIndex := none,
                   lastPixelInSequence := some false, lastColor := some p }
    | none =>
      -- fall-back when the pixel cannot be expressed as a delta from the
      -- previous one (including the first pixel, where
      -- `pixels[pixelIndex] - undefined` is NaN and both comparisons are
      -- false): flush any delta sequence, and emit the previous pixel as
      -- a discrete literal if it is still pending
      let fallback : DelWState :=
        let s1 := if s.deltaRunVals ≠ [] then
          { s with buf := s.buf ++ writeDeltaSeq s.deltaRunVals,
                   deltaRunVals := [] } else s
        let s2 := if s1.lastPixelInSequence = some false then
          { s1 with buf := s1.buf ++ [0x03, u8 (s1.lastColor.getD 0)] } else s1
        { s2 with lastPixelInSequence := some false, lastColor := some p }
      match s.lastColor with
      | some lc =>
        if -8 ≤ (p : Int) - lc ∧ (p : Int) - lc ≤ 7 then
          -- expressible as a delta from the previous pixel
          let vals0 := if s.deltaRunVals = [] then [lc] else s.deltaRunVals
          let vals := vals0 ++ [deltaTable.indexOf ((p : Int) - lc)]
          if 0x3F ≤ vals.length then
            .ok { s with buf := s.buf ++ writeDeltaSeq vals, deltaRunVals := [],
                         lastPixelInSequence := some true, lastColor := some p }
          else
            .ok { s with deltaRunVals := vals,
                         lastPixelInSequence := some true, lastColor := some p }
        else
          .ok fallback
      | none => .ok fallback

/-- `Image_Del.write(image)` (img-del.js lines 267-419).  Note the
source's own remark at line 408: `TODO: write out any unfinished sequence
(or individual value) at the end` — only a pending delta sequence is
flushed after the loop; a pending single-colour run or discrete trailing
pixel is dropped. -/
def delWrite (image : DelImage) : Except String (List Nat) :=
  if image.frames.length ≠ 1 then
    .error "Can only write one frame to this format."
  else do
    let pixels := image.frames.headD []
    let s ← (List.range pixels.length).foldlM (delWriteStep pixels)
      ⟨[], none, none, [], none⟩
    let raster := if s.deltaRunVals ≠ [] then s.buf ++ writeDeltaSeq s.deltaRunVals
      else s.buf
    .ok (put (writeU16le image.width) ++ put (writeU16le image.height) ++ raster)

/-! ## Claim theorems: concrete scenarios and counterexamples -/

/-- Claim C8: `fromPlanar` applied to the 4-byte buffer
`[0xFF, 0x70, 0x3F, 0x18]` with `planeCount = 4`, `planeWidth = 8`
(byte-planar), `planeValues = [1, 2, 4, 8]` and `byteOrderMSB = true`
returns exactly the 8-pixel linear buffer
`[0x01, 0x03, 0x07, 0x0F, 0x0D, 0x05, 0x05, 0x05]`. -/
theorem fromPlanar_byte_planar_scenario :
    fromPlanar [0xFF, 0x70, 0x3F, 0x18] 4 8 [1, 2, 4, 8] true =
      .ok [0x01, 0x03, 0x07, 0x0F, 0x0D, 0x05, 0x05, 0x05] := by decide

/-- Claim C9: the VGA 8-bit palette `identify` accepts any 768-byte input
that starts with three zero bytes and contains a byte above 64, and
rejects the same content truncated to 767 bytes with a reason citing the
length mismatch.  Both identifications are values of a total Lean
function, so neither can throw. -/
theorem pal_vga_8bit_identify_scenario (content : List Nat)
    (hlen : content.length = 768)
    (h0 : content.getD 0 0 = 0) (h1 : content.getD 1 0 = 0)
    (h2 : content.getD 2 0 = 0)
    (hbig : ∃ b ∈ content, 64 < b) :
    palVga8bitIdentify content =
      ⟨true, "Correct file size and starts with black."⟩ ∧
    palVga8bitIdentify (content.take 767) =
      ⟨false, "File length 767 is not 768."⟩ := by
  constructor
  · have hany : content.any (fun b => 64 < b) = true := by
      rw [List.any_eq_true]
      obtain ⟨b, hb, hgt⟩ := hbig
      exact ⟨b, hb, by simpa using hgt⟩
    simp only [palVga8bitIdentify, hlen, h0, h1, h2, hany]
    simp
  · have ht : (content.take 767).length = 767 := by simp [hlen]
    simp only [palVga8bitIdentify, ht]
    norm_num
    decide

/-- Witness for `pal_vga_8bit_identify_scenario` at the concrete palette
`00 00 00` followed by 765 copies of 200. -/
theorem pal_vga_8bit_identify_scenario_witness :
    palVga8bitIdentify (0 :: 0 :: 0 :: List.replicate 765 200) =
      ⟨true, "Correct file size and starts with black."⟩ ∧
    palVga8bitIdentify ((0 :: 0 :: 0 :: List.replicate 765 200).take 767) =
      ⟨false, "File length 767 is not 768."⟩ :=
  pal_vga_8bit_identify_scenario _ (by simp) rfl rfl rfl
    ⟨200, List.mem_cons_of_mem _ (List.mem_cons_of_mem _
      (List.mem_cons_of_mem _ (List.mem_replicate.mpr ⟨by norm_num, rfl⟩))),
      by norm_num⟩

/-- Claim C5 (code bug): a 127-pixel run of the transparent sentinel 255
is flushed by the Stamp encoder as two opaque repeat runs and a direct
copy (`7F FF 7F FF 01 FF` after the 8-byte header), not as the single
transparency control byte `FF` that the encoder's own comments and its
dead transparency branch (img-stp.js lines 306-315) intend: the sentinel
is read from `this.metadata().transparentIndex` (line 260), which is
`undefined` because `metadata()` stores it under
`limits.transparentIndex` — the path the decoder correctly uses. -/
theorem stp_write_transparent_run_emitted_opaque :
    stpWriteByVersion ⟨127, 1, 0, 0, [List.replicate 127 255]⟩ 2 =
      .ok ([127, 0, 1, 0, 0, 0, 0, 0] ++
        [0x7F, 0xFF, 0x7F, 0xFF, 0x01, 0xFF]) ∧
    ([0x7F, 0xFF, 0x7F, 0xFF, 0x01, 0xFF] : List Nat) ≠ [0xFF] := by decide

/-- Claim C2 (code bug): the Delta encoder drops a trailing single-colour
run — `Image_Del.write` of the 3-pixel buffer `[7, 7, 7]` emits only the
4-byte header (the source's own line 408 reads
`TODO: write out any unfinished sequence (or individual value) at the
end`), and `Image_Del.read` of that output fails with the
truncated-input error instead of returning the pixels, breaking the
required round-trip. -/
theorem del_write_drops_trailing_run :
    delWrite ⟨3, 1, [[7, 7, 7]]⟩ = .ok [3, 0, 1, 0] ∧
    delRead [3, 0, 1, 0] =
      .error "Ran out of input data before full frame size was constructed." := by
  decide

/-- Counterexample to claim C4 as stated: decoding the Stamp file with
header `width = 2, height = 2` and raster `FF` succeeds with 4 (not 127)
transparent-sentinel pixels and raises no extraneous-input error — the
transparency fill is clamped to the output size and the control byte was
the last input byte. -/
theorem stp_transparency_overrun_counterexample :
    stpReadByVersion [2, 0, 2, 0, 0, 0, 0, 0, 0xFF] 2 =
      .ok ⟨2, 2, 0, 0, [[255, 255, 255, 255]]⟩ ∧
    (∀ e : String,
      stpReadByVersion [2, 0, 2, 0, 0, 0, 0, 0, 0xFF] 2 ≠ .error e) ∧
    (4 : Nat) ≠ 127 := by
  refine ⟨by decide, ?_, by decide⟩
  intro e h
  rw [show stpReadByVersion [2, 0, 2, 0, 0, 0, 0, 0, 0xFF] 2 =
    .ok ⟨2, 2, 0, 0, [[255, 255, 255, 255]]⟩ from by decide] at h
  exact Except.noConfusion h

/-- Counterexample to claim C3 as stated: with the valid parameter set
`planeCount = 1`, `planeWidth = 4` (rounding to byte width 1),
`planeValues = [1]`, MSB order, the 2-byte buffer `[0xF0, 0x0F]` (its
length a multiple of the plane-group size 1) does not survive the
`toPlanar ∘ fromPlanar` round trip: the low nibble is lost because
`fromPlanar` reads only `planeWidth` bits per byte group while `toPlanar`
advances through output bytes per 8 global pixels. -/
theorem planar_roundtrip_counterexample :
    (fromPlanar [0xF0, 0x0F] 1 4 [1] true).bind
      (fun lin => toPlanar lin 1 4 [1] true) = .ok [0xF0, 0x00] ∧
    ([0xF0, 0x00] : List Nat) ≠ [0xF0, 0x0F] := by decide

/-- Counterexample to claim C7 as stated: `toPlanar` performs no
plane-width validation — called with `planeWidth = 0` (byte width 0) on a
non-empty buffer it returns a zero-filled result instead of failing with
the invalid-plane-width error. -/
theorem toPlanar_zero_width_counterexample :
    toPlanar [1, 1, 1, 1, 1, 1, 1, 1] 1 0 [1] true = .ok [0] ∧
    (∀ e : String,
      toPlanar [1, 1, 1, 1, 1, 1, 1, 1] 1 0 [1] true ≠ .error e) := by
  refine ⟨by decide, ?_⟩
  intro e h
  rw [show toPlanar [1, 1, 1, 1, 1, 1, 1, 1] 1 0 [1] true = .ok [0]
    from by decide] at h
  exact Except.noConfusion h

/-- Counterexample to claim C6 as stated: `frameCompose` never reads the
explicitly supplied background colour.  A composition of one 1×1 frame
(pixel 5, no palette) at offset (1,0) with `options.bg = 7` produces
canvas `[0, 5]` — the uncovered pixel is filled with the fallback 0, not
with the supplied 7. -/
theorem frameCompose_supplied_bg_ignored_counterexample :
    (frameCompose [⟨⟨some 1, some 1, [5], none⟩, 1, 0⟩]
      ⟨1, 1, some 7, none⟩).map CFrame.pixels = .ok [0, 5] ∧
    ((0 : Nat) = 7 → False) := by decide

/-! ## Helper lemmas for the Stamp decoder -/

/-- Applying the Uint8Array store coercion to values that are already
bytes is the identity. -/
theorem map_u8_eq_self (l : List Nat) (hb : ∀ b ∈ l, b < 256) :
    l.map u8 = l := by
  induction l with
  | nil => rfl
  | cons a l ih =>
    have ha : u8 a = a := Nat.mod_eq_of_lt (hb a (by simp))
    simp [ha, ih (fun b hbm => hb b (by simp [hbm]))]

/-- Once the direct-copy counter is non-positive, `--count == 0` can
never fire again, so the decoder copies the entire remaining input
verbatim, ending in the truncated-input error exactly when the input is
too short to fill the frame. -/
theorem stpLoop_direct_nonpos (outLen : Nat) (count : Int)
    (input acc : List Nat) (hc : count ≤ 0)
    (hfit : acc.length + input.length ≤ outLen) :
    stpLoop outLen (.direct count) input acc =
      if acc.length + input.length < outLen then
        .error "Ran out of input data before full frame size was constructed."
      else .ok (acc ++ input.map u8) := by
  induction input generalizing acc count with
  | nil => simp [stpLoop]
  | cons b rest ih =>
    rw [stpLoop]
    have hlt : acc.length < outLen := by
      simp only [List.length_cons] at hfit; omega
    rw [if_neg (Nat.not_le.mpr hlt)]
    rw [if_neg (by omega : ¬ (count - 1 = 0))]
    rw [ih (count - 1) (acc ++ [u8 b]) (by omega)
      (by simp only [List.length_append, List.length_cons,
            List.length_nil] at hfit ⊢; omega)]
    simp only [List.length_append, List.length_cons, List.length_nil,
      List.map_cons, List.append_assoc, List.singleton_append]
    have heq : acc.length + (0 + 1) + rest.length
        = acc.length + (rest.length + 1) := by omega
    rw [heq]

/-- Claim C4, amended: for a Stamp file whose raster data is the single
control byte `0xFF` and whose header declares `0 < width * height < 127`,
the decoder produces `width * height` transparent-sentinel pixels (the
transparency fill is clamped to the output size) and returns
successfully — no extraneous-input error is raised, because the control
byte was the last input byte. -/
theorem stp_transparency_run_clamped (w h : Nat) (hw : w < 65536)
    (hh : h < 65536) (hpos : 0 < w * h) (hlt : w * h < 127) :
    stpReadByVersion (writeU16le w ++ writeU16le h ++ [0, 0, 0, 0, 0xFF]) 2 =
      .ok ⟨w, h, 0, 0, [List.replicate (w * h) 255]⟩ := by
  have hwrt : w % 256 + 256 * (w / 256 % 256) = w := by omega
  have hhrt : h % 256 + 256 * (h / 256 % 256) = h := by omega
  simp only [stpReadByVersion, writeU16le, stpHeaderSize, readU16le, readS16le,
    List.cons_append, List.nil_append, List.getD_cons_zero, List.getD_cons_succ]
  norm_num [hwrt, hhrt]
  have hstep : stpLoop (w * h) StpState.seek [255] [] =
      .ok (List.replicate (w * h) 255) := by
    rw [stpLoop]
    norm_num [Nat.not_le.mpr hpos,
      show (255 : Nat) &&& 128 = 128 from by decide,
      show (255 : Nat) &&& 127 = 127 from by decide]
    rw [min_eq_right (by omega : w * h ≤ 127)]
    rw [stpLoop]
    simp
  rw [hstep]
  rfl

/-- Witness for `stp_transparency_run_clamped` at width 2, height 2. -/
theorem stp_transparency_run_clamped_witness :
    stpReadByVersion (writeU16le 2 ++ writeU16le 2 ++ [0, 0, 0, 0, 0xFF]) 2 =
      .ok ⟨2, 2, 0, 0, [List.replicate (2 * 2) 255]⟩ :=
  stp_transparency_run_clamped 2 2 (by decide) (by decide) (by decide)
    (by decide)

/-- Claim C10: a direct-copy control byte of `0x00` never emits an empty
copy — the decoder enters the direct-copy state with count 0, the count
falls to -1 after the first copied byte (the `--count == 0` test can
never fire again), and every subsequent input byte is copied verbatim:
with exactly `width * height` following bytes the whole tail is copied
and the read succeeds; with fewer, the input runs out first and the read
fails with the truncated-input error. -/
theorem stp_direct_copy_zero_count (w h : Nat) (bytes : List Nat)
    (hw : w < 65536) (hh : h < 65536) (hpos : 0 < w * h)
    (hb : ∀ b ∈ bytes, b < 256) (hfit : bytes.length ≤ w * h) :
    stpReadByVersion
        (writeU16le w ++ writeU16le h ++ [0, 0, 0, 0] ++ 0 :: bytes) 2 =
      if bytes.length < w * h then
        .error "Ran out of input data before full frame size was constructed."
      else .ok ⟨w, h, 0, 0, [bytes]⟩ := by
  have hwrt : w % 256 + 256 * (w / 256 % 256) = w := by omega
  have hhrt : h % 256 + 256 * (h / 256 % 256) = h := by omega
  simp only [stpReadByVersion, writeU16le, stpHeaderSize, readU16le, readS16le,
    List.cons_append, List.nil_append, List.getD_cons_zero, List.getD_cons_succ]
  norm_num [hwrt, hhrt]
  rw [stpLoop]
  simp only [List.length_nil]
  rw [if_neg (Nat.not_le.mpr hpos)]
  norm_num
  rw [stpLoop_direct_nonpos _ _ _ _ (by omega) (by simpa using hfit)]
  simp only [List.length_nil, List.nil_append, Nat.zero_add]
  rcases Nat.lt_or_ge bytes.length (w * h) with hlt | hge
  · rw [if_pos hlt, if_pos hlt]; rfl
  · rw [if_neg (Nat.not_lt.mpr hge), if_neg (Nat.not_lt.mpr hge),
      map_u8_eq_self bytes hb]
    rfl

/-- Witness for `stp_direct_copy_zero_count`: a 3×1 frame whose raster is
the control byte `0x00` followed by exactly three bytes decodes to those
three bytes. -/
theorem stp_direct_copy_zero_count_witness :
    stpReadByVersion
        (writeU16le 3 ++ writeU16le 1 ++ [0, 0, 0, 0] ++ 0 :: [10, 20, 30]) 2 =
      .ok ⟨3, 1, 0, 0, [[10, 20, 30]]⟩ := by
  rw [stp_direct_copy_zero_count 3 1 [10, 20, 30] (by decide) (by decide)
    (by decide) (by decide) (by decide)]
  decide

/-! ## Plane-width validation (claim C7) and background fill (claim C6) -/

/-- Claim C7, amended: when `planeWidth` rounds to a zero byte width,
`fromPlanar` fails with the invalid-plane-width error (provided the
output allocation succeeds, i.e. `planeCount` divides `8 * |content|`),
but `toPlanar` performs no such check and returns a zero-filled planar
buffer. -/
theorem planar_zero_width_check (content : List Nat) (planeCount : Nat)
    (planeValues : List Nat) (msb : Bool) (hne : content ≠ [])
    (hd1 : planeCount ∣ content.length * 8)
    (hd2 : 8 ∣ content.length * planeCount) :
    fromPlanar content planeCount 0 planeValues msb =
      .error "fromPlanar() planeWidth=0 too small!" ∧
    toPlanar content planeCount 0 planeValues msb =
      .ok (List.replicate (content.length * planeCount / 8) 0) := by
  have hlen : ¬ (content.length = 0) := by
    simpa [List.length_eq_zero] using hne
  constructor
  · simp only [fromPlanar]
    rw [if_neg hlen, if_neg (by simpa using hd1)]
    norm_num
    decide
  · simp only [toPlanar]
    rw [if_neg hlen, if_neg (by simpa using hd2)]
    norm_num

/-- Witness for `planar_zero_width_check` on an 8-byte buffer of ones
with a single plane. -/
theorem planar_zero_width_check_witness :
    fromPlanar [1, 1, 1, 1, 1, 1, 1, 1] 1 0 [1] true =
      .error "fromPlanar() planeWidth=0 too small!" ∧
    toPlanar [1, 1, 1, 1, 1, 1, 1, 1] 1 0 [1] true =
      .ok (List.replicate ((8 : Nat) * 1 / 8) 0) :=
  planar_zero_width_check [1, 1, 1, 1, 1, 1, 1, 1] 1 [1] true (by decide)
    (by decide) (by decide)

/-- Spec-side description of the background index, written from the
spec's words: the index of the first palette entry whose alpha is 0,
falling back to index 0 if none is found. -/
def firstTransparentIndex (pal : Palette) : Nat :=
  (pal.findIdx? (fun e => e.getD 3 255 == 0)).getD 0

/-- The background scan agrees with the first-transparent-entry spec on
palettes whose entries all carry an alpha channel (the running index `i`
offsets the result; an absent transparent entry leaves the initial 0). -/
theorem composeBgScan_spec (pal : List (List Nat)) (i : Nat)
    (hvalid : ∀ e ∈ pal, 4 ≤ e.length) :
    composeBgScan pal i = .ok
      (match pal.findIdx? (fun e => e.getD 3 255 == 0) with
       | some j => i + j
       | none => 0) := by
  induction pal generalizing i with
  | nil => rfl
  | cons e rest ih =>
    have he : 4 ≤ e.length := hvalid e (by simp)
    rw [composeBgScan]
    rw [if_neg (by omega)]
    have hgd : e.getD 3 0 = e.getD 3 255 := by
      rw [List.getD_eq_getElem _ _ (by omega),
        List.getD_eq_getElem _ _ (by omega)]
    by_cases hz : e.getD 3 255 = 0
    · rw [if_pos (by rw [hgd]; exact hz)]
      have hz' : (e.getD 3 255 == 0) = true := by simpa using hz
      rw [List.findIdx?_cons, hz']
      simp only [if_true]
      rfl
    · rw [if_neg (by rw [hgd]; exact hz)]
      rw [ih (i + 1) (fun x hx => hvalid x (by simp [hx]))]
      have hz' : (e.getD 3 255 == 0) = false := by simpa using hz
      rw [List.findIdx?_cons, hz']
      simp only [Bool.false_eq_true, if_false, List.findIdx?_succ]
      cases hfind : rest.findIdx? (fun x => x.getD 3 255 == 0) with
      | none => rfl
      | some j =>
        simp only [Option.map_some']
        exact congrArg Except.ok (by omega)

/-- Claim C6, amended: `frameCompose` ignores any explicitly supplied
background colour — its result depends on the options only through
`defaultWidth` and `defaultHeight` — and the canvas background it fills
is the index of the first entry of the first composition frame's palette
whose alpha is 0, or palette index 0 when no transparent entry exists or
that frame has no palette. -/
theorem frameCompose_background (comp : List ComposeEntry)
    (o1 o2 : ComposeOptions) (hw : o1.defaultWidth = o2.defaultWidth)
    (hh : o1.defaultHeight = o2.defaultHeight) :
    frameCompose comp o1 = frameCompose comp o2 ∧
    (∀ pal : Palette, (∀ e ∈ pal, 4 ≤ e.length) →
      composeBackground (some pal) = .ok (firstTransparentIndex pal)) ∧
    composeBackground none = .ok 0 := by
  refine ⟨?_, ?_, rfl⟩
  · obtain ⟨dw1, dh1, bg1, p1⟩ := o1
    obtain ⟨dw2, dh2, bg2, p2⟩ := o2
    simp only at hw hh
    subst hw hh
    rfl
  · intro pal hvalid
    rw [composeBackground, composeBgScan_spec pal 0 hvalid]
    rw [firstTransparentIndex]
    cases pal.findIdx? (fun e => e.getD 3 255 == 0) with
    | none => rfl
    | some j => simp

/-- Witness for `frameCompose_background`: supplying `bg = 7` versus no
`bg` yields identical compositions, and a palette whose second entry is
transparent yields background 1. -/
theorem frameCompose_background_witness :
    frameCompose [⟨⟨some 1, some 1, [5], none⟩, 1, 0⟩] ⟨1, 1, some 7, none⟩ =
      frameCompose [⟨⟨some 1, some 1, [5], none⟩, 1, 0⟩] ⟨1, 1, none, none⟩ ∧
    composeBackground (some [[0, 0, 0, 255], [1, 2, 3, 0]]) = .ok 1 ∧
    composeBackground none = .ok 0 := by
  obtain ⟨h1, h2, h3⟩ := frameCompose_background
    [⟨⟨some 1, some 1, [5], none⟩, 1, 0⟩]
    ⟨1, 1, some 7, none⟩ ⟨1, 1, none, none⟩ rfl rfl
  refine ⟨h1, ?_, h3⟩
  rw [h2 [[0, 0, 0, 255], [1, 2, 3, 0]] (by decide)]
  decide

/-! ## Claim C1: Stamp round-trip -/

/-- Grammar-level decode of a Stamp raster byte stream into pixels,
used to factor the round-trip proof: a transparency chunk (top bit set)
yields its count of sentinel pixels, a repeat chunk (`0x40` family)
yields its count of copies of the following byte, and a direct chunk
yields its count of following bytes verbatim; zero counts and truncated
chunks are rejected (the encoder never produces them). -/
def decodeSeq (l : List Nat) : Option (List Nat) :=
  if hl : l = [] then some []
  else if l.headD 0 &&& 0x80 = 0x80 then
    if l.headD 0 &&& 0x7F = 0 then none
    else (decodeSeq (l.drop 1)).map
      (List.replicate (l.headD 0 &&& 0x7F) 255 ++ ·)
  else if l.headD 0 &&& 0xC0 = 0x40 then
    if l.drop 1 = [] then none
    else if l.headD 0 &&& 0x3F = 0 then none
    else (decodeSeq (l.drop 2)).map
      (List.replicate (l.headD 0 &&& 0x3F) (u8 ((l.drop 1).headD 0)) ++ ·)
  else if l.headD 0 = 0 then none
  else if l.headD 0 ≤ (l.drop 1).length then
    (decodeSeq ((l.drop 1).drop (l.headD 0))).map
      (((l.drop 1).take (l.headD 0)).map u8 ++ ·)
  else none
termination_by l.length
decreasing_by
  all_goals
    (simp only [List.length_drop]
     have : 0 < l.length := List.length_pos.mpr hl
     omega)

/-- An empty raster decodes to no pixels. -/
theorem decodeSeq_nil : decodeSeq [] = some [] := by
  unfold decodeSeq; rfl

/-- One-step evaluation of `decodeSeq` on a cons cell. -/
theorem decodeSeq_cons (b : Nat) (rest : List Nat) :
    decodeSeq (b :: rest) =
      if b &&& 0x80 = 0x80 then
        if b &&& 0x7F = 0 then none
        else (decodeSeq rest).map (List.replicate (b &&& 0x7F) 255 ++ ·)
      else if b &&& 0xC0 = 0x40 then
        if rest = [] then none
        else if b &&& 0x3F = 0 then none
        else (decodeSeq (rest.drop 1)).map
          (List.replicate (b &&& 0x3F) (u8 (rest.headD 0)) ++ ·)
      else if b = 0 then none
      else if b ≤ rest.length then
        (decodeSeq (rest.drop b)).map ((rest.take b).map u8 ++ ·)
      else none := by
  conv_lhs => unfold decodeSeq
  rfl

/-- The decoder consumes a whole direct-copy chunk: with a positive
count matching the byte count available, the copy loop appends exactly
those bytes and returns to the control-byte state. -/
theorem stpLoop_direct_chunk (outLen : Nat) (bytes : List Nat) :
    ∀ (m : Nat) (rest acc : List Nat), bytes.length = m → 0 < m →
    acc.length + m ≤ outLen →
    stpLoop outLen (.direct (m : Int)) (bytes ++ rest) acc =
      stpLoop outLen .seek rest (acc ++ bytes.map u8) := by
  induction bytes with
  | nil => intro m rest acc hm hpos _; simp at hm; omega
  | cons x bytes ih =>
    intro m rest acc hm hpos hspace
    rw [List.cons_append, stpLoop]
    have hlt : acc.length < outLen := by omega
    rw [if_neg (Nat.not_le.mpr hlt)]
    simp only [List.length_cons] at hm
    by_cases h1 : m = 1
    · subst h1
      have hb : bytes = [] := List.length_eq_zero.mp (by omega)
      subst hb
      norm_num
    · have hne : ¬((m : Int) - 1 = 0) := by omega
      rw [if_neg hne]
      have hcast : (m : Int) - 1 = ((m - 1 : Nat) : Int) := by omega
      rw [hcast]
      rw [ih (m - 1) rest (acc ++ [u8 x]) (by omega) (by omega)
        (by simp only [List.length_append, List.length_cons, List.length_nil]; omega)]
      simp [List.append_assoc]

/-- The decoder accepts exactly-filled output when the input ends. -/
theorem stpLoop_nil_exact (outLen : Nat) (acc : List Nat)
    (hlen : acc.length = outLen) :
    stpLoop outLen .seek [] acc = .ok acc := by
  rw [stpLoop]
  rw [if_neg (by omega)]

/-- The real decode loop agrees with the chunk grammar: a raster that
`decodeSeq` accepts is decoded by `stpLoop` into exactly those pixels
whenever the declared output size matches. -/
theorem stpLoop_decodeSeq (N : Nat) :
    ∀ (raster : List Nat), raster.length ≤ N →
    ∀ (pix acc : List Nat) (outLen : Nat),
      decodeSeq raster = some pix → acc.length + pix.length = outLen →
      stpLoop outLen .seek raster acc = .ok (acc ++ pix) := by
  induction N with
  | zero =>
    intro raster h pix acc outLen hdec hlen
    have hr : raster = [] := List.length_eq_zero.mp (by omega)
    subst hr
    have hp : pix = [] := by
      rw [decodeSeq_nil] at hdec
      exact (Option.some.injEq _ _ ▸ hdec).symm
    subst hp
    simp only [List.append_nil]
    exact stpLoop_nil_exact outLen acc (by simpa using hlen)
  | succ N ih =>
    intro raster h pix acc outLen hdec hlen
    cases raster with
    | nil =>
      rw [decodeSeq_nil] at hdec
      have hp : pix = [] := (Option.some.injEq _ _ ▸ hdec).symm
      subst hp
      simp only [List.append_nil]
      exact stpLoop_nil_exact outLen acc (by simpa using hlen)
    | cons b rest =>
      simp only [List.length_cons] at h
      rw [decodeSeq_cons] at hdec
      by_cases h80 : b &&& 0x80 = 0x80
      · rw [if_pos h80] at hdec
        by_cases hz : b &&& 0x7F = 0
        · rw [if_pos hz] at hdec; exact absurd hdec (by simp)
        · rw [if_neg hz] at hdec
          cases hrest : decodeSeq rest with
          | none => rw [hrest] at hdec; exact absurd hdec (by simp)
          | some pix2 =>
            rw [hrest] at hdec
            simp only [Option.map_some', Option.some.injEq] at hdec
            subst hdec
            simp only [List.length_append, List.length_replicate] at hlen
            have hn1 : 0 < b &&& 0x7F := by omega
            rw [stpLoop]
            rw [if_neg (by omega : ¬ (outLen ≤ acc.length))]
            rw [if_pos h80]
            rw [min_eq_left (by omega : b &&& 0x7F ≤ outLen - acc.length)]
            rw [ih rest (by omega) pix2 (acc ++ List.replicate (b &&& 0x7F) 255)
              outLen hrest
              (by simp only [List.length_append, List.length_replicate]; omega)]
            rw [List.append_assoc]
      · rw [if_neg h80] at hdec
        by_cases h40 : b &&& 0xC0 = 0x40
        · rw [if_pos h40] at hdec
          cases rest with
          | nil => rw [if_pos rfl] at hdec; exact absurd hdec (by simp)
          | cons c rest2 =>
            rw [if_neg (by simp)] at hdec
            simp only [List.headD_cons, List.drop_succ_cons, List.drop_zero]
              at hdec
            by_cases hz : b &&& 0x3F = 0
            · rw [if_pos hz] at hdec; exact absurd hdec (by simp)
            · rw [if_neg hz] at hdec
              cases hrest : decodeSeq rest2 with
              | none => rw [hrest] at hdec; exact absurd hdec (by simp)
              | some pix2 =>
                rw [hrest] at hdec
                simp only [Option.map_some', Option.some.injEq] at hdec
                subst hdec
                simp only [List.length_append, List.length_replicate] at hlen
                have hn1 : 0 < b &&& 0x3F := by omega
                rw [stpLoop]
                rw [if_neg (by omega : ¬ (outLen ≤ acc.length))]
                rw [if_neg h80, if_pos h40]
                rw [stpLoop]
                rw [if_neg (by omega : ¬ (outLen ≤ acc.length))]
                rw [min_eq_left (by omega : b &&& 0x3F ≤ outLen - acc.length)]
                simp only [List.length_cons] at h
                rw [ih rest2 (by omega) pix2
                  (acc ++ List.replicate (b &&& 0x3F) (u8 c)) outLen hrest
                  (by simp only [List.length_append, List.length_replicate]; omega)]
                rw [List.append_assoc]
        · rw [if_neg h40] at hdec
          by_cases hz : b = 0
          · rw [if_pos hz] at hdec; exact absurd hdec (by simp)
          · rw [if_neg hz] at hdec
            by_cases hble : b ≤ rest.length
            · rw [if_pos hble] at hdec
              cases hrest : decodeSeq (rest.drop b) with
              | none => rw [hrest] at hdec; exact absurd hdec (by simp)
              | some pix2 =>
                rw [hrest] at hdec
                simp only [Option.map_some', Option.some.injEq] at hdec
                subst hdec
                simp only [List.length_append, List.length_map,
                  List.length_take] at hlen
                rw [stpLoop]
                rw [if_neg (by omega : ¬ (outLen ≤ acc.length))]
                rw [if_neg h80, if_neg h40]
                conv_lhs => rw [← List.take_append_drop b rest]
                rw [stpLoop_direct_chunk outLen (rest.take b) b (rest.drop b) acc
                  (by simp only [List.length_take]; omega) (by omega)
                  (by omega)]
                rw [ih (rest.drop b) (by simp only [List.length_drop]; omega) pix2
                  (acc ++ (rest.take b).map u8) outLen hrest
                  (by simp only [List.length_append, List.length_map,
                    List.length_take]; omega)]
                rw [List.append_assoc]
            · rw [if_neg hble] at hdec; exact absurd hdec (by simp)

/-- The byte-store coercion is idempotent. -/
theorem u8_u8 (x : Nat) : u8 (u8 x) = u8 x := Nat.mod_mod_of_dvd x dvd_rfl

/-- Idempotence of the byte-store coercion over a whole buffer. -/
theorem map_u8_u8 (l : List Nat) : (l.map u8).map u8 = l.map u8 := by
  rw [List.map_map]
  exact List.map_congr_left (fun x _ => u8_u8 x)

/-- The repeat-run control byte written by the encoder evaluates to
`64 + count`. -/
theorem ctrlRep_u8 : ∀ x < 64, u8 (64 ||| (x &&& 63)) = 64 + x := by decide

/-- The direct-copy control byte written by the encoder evaluates to its
count. -/
theorem ctrlDir_u8 : ∀ x < 64, u8 (x &&& 63) = x := by decide

/-- Bit tests performed by the decoder on a repeat-run control byte. -/
theorem repCtrl_bits : ∀ x < 64, ¬ ((64 + x) &&& 128 = 128) ∧
    ((64 + x) &&& 192 = 64) ∧ ((64 + x) &&& 63 = x) := by decide

/-- Bit tests performed by the decoder on a direct-copy control byte. -/
theorem dirCtrl_bits : ∀ x < 64, ¬ (x &&& 128 = 128) ∧
    ¬ (x &&& 192 = 64) := by decide

/-- A slice followed by the remaining suffix reassembles the suffix from
the slice start. -/
theorem sliceN_append (pixels : List Nat) (rs k : Nat) :
    sliceN pixels rs k ++ pixels.drop (rs + k) = pixels.drop rs := by
  rw [sliceN, ← List.drop_drop]
  exact List.take_append_drop k (pixels.drop rs)

/-- Length of an in-range slice. -/
theorem sliceN_length (pixels : List Nat) (rs k : Nat)
    (h : rs + k ≤ pixels.length) : (sliceN pixels rs k).length = k := by
  simp only [sliceN, List.length_take, List.length_drop]
  omega

/-- Extending a slice by one in-range element. -/
theorem sliceN_succ (pixels : List Nat) (rs k : Nat)
    (h : rs + k < pixels.length) :
    sliceN pixels rs (k + 1) = sliceN pixels rs k ++ [pixels.getD (rs + k) 0] := by
  rw [sliceN, sliceN, List.take_succ]
  congr 1
  rw [List.getElem?_drop]
  rw [List.getElem?_eq_getElem (by omega), List.getD_eq_getElem _ _ (by omega)]
  rfl

/-- Decoding a serialised repeat-run chunk. -/
theorem decodeSeq_rep (n c : Nat) (tail : List Nat) (h1 : 1 ≤ n)
    (h63 : n ≤ 63) :
    decodeSeq ((64 + n) :: u8 c :: tail) =
      (decodeSeq tail).map (List.replicate n (u8 c) ++ ·) := by
  obtain ⟨f1, f2, f3⟩ := repCtrl_bits n (by omega)
  rw [decodeSeq_cons, if_neg f1, if_pos f2, if_neg (by simp),
    if_neg (show ¬ ((64 + n) &&& 63 = 0) from by rw [f3]; omega), f3]
  simp only [List.headD_cons, List.drop_succ_cons, List.drop_zero, u8_u8]

/-- Decoding a serialised direct-copy chunk. -/
theorem decodeSeq_direct (k : Nat) (bytes tail : List Nat)
    (hk : bytes.length = k) (h1 : 1 ≤ k) (h63 : k ≤ 63) :
    decodeSeq (k :: (bytes.map u8 ++ tail)) =
      (decodeSeq tail).map (bytes.map u8 ++ ·) := by
  obtain ⟨f1, f2⟩ := dirCtrl_bits k (by omega)
  rw [decodeSeq_cons, if_neg f1, if_neg f2, if_neg (by omega),
    if_pos (by simp only [List.length_append, List.length_map]; omega)]
  rw [List.take_left' (by simp only [List.length_map]; omega),
    List.drop_left' (by simp only [List.length_map]; omega), map_u8_u8]

/-- Small byte constant fact. -/
theorem u8_x3F : u8 63 = 63 := by decide
/-- The opaque-cap control byte `0x7F` as a repeat-run control value. -/
theorem x7F_eq : (127 : Nat) = 64 + 63 := by decide

/-- Main encoder invariant: from any reachable encoder state (no pending
data; one pending pixel; a colour run of the slice from `rs`; or a
pending direct-copy stretch), the bytes the encoder will emit decode
under the chunk grammar to exactly the unconsumed pixels from `rs` on.
`n` is the number of loop iterations left, so `n + i` is the pixel
count. -/
theorem stpEncLoop_decodes (pixels : List Nat) : ∀ (n : Nat), ∀ (i rs : Nat)
    (rc : Option Nat) (rl : Nat) (ds rq : Bool), n + i = pixels.length →
    ((ds = false ∧ rq = false ∧ rl = 0 ∧ rs = i ∧
        (rc = none ∨ (0 < i ∧ rc = some (pixels.getD (i - 1) 0)))) ∨
     (ds = false ∧ rq = false ∧ rl = 1 ∧ rs + 1 = i ∧
        rc = some (pixels.getD (i - 1) 0)) ∨
     (ds = false ∧ rq = true ∧ 1 ≤ rl ∧ rl ≤ 62 ∧ rs + rl = i ∧
        ∃ c, rc = some c ∧ sliceN pixels rs rl = List.replicate rl c) ∨
     (ds = true ∧ rq = false ∧ 2 ≤ rl ∧ rl ≤ 62 ∧ rs + rl = i ∧
        rc = some (pixels.getD (i - 1) 0))) →
    decodeSeq (stpEncLoop pixels n i rs rc rl ds rq) =
      some ((pixels.drop rs).map u8) := by
  intro n
  induction n with
  | zero =>
    intro i rs rc rl ds rq hn hinv
    have hi : i = pixels.length := by omega
    rw [stpEncLoop]
    rcases hinv with ⟨hds, hrq, hrl, hrs, hrc⟩ | ⟨hds, hrq, hrl, hrs, hrc⟩ |
      ⟨hds, hrq, h1, h62, hrs, c, hrc, hslice⟩ | ⟨hds, hrq, h2, h62, hrs, hrc⟩
    · -- A: nothing pending
      subst hrl hrs
      rw [if_neg (by omega), decodeSeq_nil, List.drop_eq_nil_of_le (by omega),
        List.map_nil]
    · -- B: single pending pixel, direct flush of length 1
      subst hrq hrl
      rw [if_pos (by omega)]
      simp only [Bool.false_eq_true, if_false, put, List.map_cons, List.map_nil]
      rw [ctrlDir_u8 1 (by omega)]
      rw [show ([1] : List Nat) ++ (sliceN pixels rs 1).map u8 =
        1 :: ((sliceN pixels rs 1).map u8 ++ []) from by simp]
      rw [decodeSeq_direct 1 (sliceN pixels rs 1) []
        (sliceN_length pixels rs 1 (by omega)) (by omega) (by omega)]
      rw [decodeSeq_nil]
      conv_rhs => rw [← sliceN_append pixels rs 1]
      rw [List.drop_eq_nil_of_le (by omega : pixels.length ≤ rs + 1)]
      simp
    · -- C: pending colour run, repeat flush
      subst hrq hrc
      rw [if_pos (by omega)]
      simp only [if_true, stpWriteTransparentIndex, put, List.map_cons,
        List.map_nil, Option.getD_some]
      rw [if_neg (by simp), if_neg (by simp)]
      rw [ctrlRep_u8 rl (by omega)]
      rw [show ([64 + rl, u8 c] : List Nat) = (64 + rl) :: u8 c :: [] from rfl]
      rw [decodeSeq_rep rl c [] (by omega) (by omega), decodeSeq_nil]
      conv_rhs => rw [← sliceN_append pixels rs rl]
      rw [List.drop_eq_nil_of_le (by omega : pixels.length ≤ rs + rl), hslice]
      simp
    · -- D: pending direct-copy sequence
      subst hrq
      rw [if_pos (by omega)]
      simp only [Bool.false_eq_true, if_false, put, List.map_cons, List.map_nil]
      rw [ctrlDir_u8 rl (by omega)]
      rw [show ([rl] : List Nat) ++ (sliceN pixels rs rl).map u8 =
        rl :: ((sliceN pixels rs rl).map u8 ++ []) from by simp]
      rw [decodeSeq_direct rl (sliceN pixels rs rl)
        [] (sliceN_length pixels rs rl (by omega)) (by omega) (by omega)]
      rw [decodeSeq_nil]
      conv_rhs => rw [← sliceN_append pixels rs rl]
      rw [List.drop_eq_nil_of_le (by omega : pixels.length ≤ rs + rl)]
      simp
  | succ n ih =>
    intro i rs rc rl ds rq hn hinv
    have hi : i < pixels.length := by omega
    rw [stpEncLoop]
    rcases hinv with ⟨hds, hrq, hrl, hrs, hrc⟩ | ⟨hds, hrq, hrl, hrs, hrc⟩ |
      ⟨hds, hrq, h1, h62, hrs, c, hrc, hslice⟩ | ⟨hds, hrq, h2, h62, hrs, hrc⟩
    · -- A: no pending data
      subst hds hrq hrl hrs
      rcases hrc with hrc | ⟨hipos, hrc⟩
      · subst hrc
        rw [if_neg (by simp)]
        simp only [Bool.false_eq_true, if_false]
        exact ih (rs + 1) rs (some (pixels.getD rs 0)) (0 + 1)
          (decide (1 < 0 + 1)) false (by omega)
          (Or.inr (Or.inl ⟨by decide, rfl, rfl, rfl,
            by rw [Nat.add_sub_cancel]⟩))
      · by_cases hpc : pixels.getD (rs - 1) 0 = pixels.getD rs 0
        · rw [if_pos (by rw [hrc, hpc])]
          rw [if_neg (by simp)]
          rw [if_neg (by simp [hrc, stpWriteTransparentIndex])]
          rw [if_neg (by omega)]
          refine ih (rs + 1) rs rc (0 + 1) false true (by omega)
            (Or.inr (Or.inr (Or.inl ⟨rfl, rfl, by omega, by omega, by omega,
              pixels.getD (rs - 1) 0, hrc, ?_⟩)))
          rw [show (0 + 1 : Nat) = 0 + 1 from rfl,
            sliceN_succ pixels rs 0 (by omega)]
          rw [show sliceN pixels rs 0 = [] from by simp [sliceN]]
          rw [show rs + 0 = rs from rfl, hpc]
          rfl
        · rw [if_neg (by rw [hrc]; simp only [Option.some.injEq]; exact hpc)]
          simp only [Bool.false_eq_true, if_false]
          exact ih (rs + 1) rs (some (pixels.getD rs 0)) (0 + 1)
            (decide (1 < 0 + 1)) false (by omega)
            (Or.inr (Or.inl ⟨by decide, rfl, rfl, rfl,
              by rw [Nat.add_sub_cancel]⟩))
    · -- B: one pending pixel
      subst hds hrq hrl
      subst hrs
      rw [Nat.add_sub_cancel] at hrc
      by_cases hpc : pixels.getD rs 0 = pixels.getD (rs + 1) 0
      · rw [if_pos (by rw [hrc, hpc])]
        rw [if_neg (by simp)]
        rw [if_neg (by simp [hrc, stpWriteTransparentIndex])]
        rw [if_neg (by omega)]
        refine ih (rs + 1 + 1) rs rc (1 + 1) false true (by omega)
          (Or.inr (Or.inr (Or.inl ⟨rfl, rfl, by omega, by omega, by omega,
            pixels.getD rs 0, hrc, ?_⟩)))
        rw [show (1 + 1 : Nat) = 1 + 1 from rfl,
          sliceN_succ pixels rs 1 (by omega)]
        rw [show (1 : Nat) = 0 + 1 from rfl,
          sliceN_succ pixels rs 0 (by omega)]
        rw [show sliceN pixels rs 0 = [] from by simp [sliceN]]
        rw [show rs + 0 = rs from rfl, show rs + (0 + 1) = rs + 1 from rfl,
          ← hpc]
        rfl
      · rw [if_neg (by rw [hrc]; simp only [Option.some.injEq]; exact hpc)]
        simp only [Bool.false_eq_true, if_false]
        exact ih (rs + 1 + 1) rs (some (pixels.getD (rs + 1) 0)) (1 + 1)
          (decide (1 < 1 + 1)) false (by omega)
          (Or.inr (Or.inr (Or.inr ⟨by decide, rfl, by omega, by omega,
            by omega, by rw [Nat.add_sub_cancel]⟩)))
    · -- C: a colour run in progress
      subst hds hrq hrc
      subst hrs
      by_cases hpc : c = pixels.getD (rs + rl) 0
      · rw [if_pos (by rw [hpc])]
        rw [if_neg (by simp)]
        rw [if_neg (by simp [stpWriteTransparentIndex])]
        by_cases hcap : rl + 1 = 63
        · rw [if_pos hcap]
          have hrl62 : rl = 62 := by omega
          subst hrl62
          simp only [put, List.map_cons, List.map_nil, Option.getD_some]
          rw [show u8 127 = 64 + 63 from by decide]
          rw [show ([64 + 63, u8 c] : List Nat) ++
            stpEncLoop pixels n (rs + 62 + 1) (rs + 62 + 1) none 0 false false =
            (64 + 63) :: u8 c ::
              stpEncLoop pixels n (rs + 62 + 1) (rs + 62 + 1) none 0 false false
            from by simp]
          rw [decodeSeq_rep 63 c _ (by omega) (by omega)]
          rw [ih (rs + 62 + 1) (rs + 62 + 1) none 0 false false (by omega)
            (Or.inl ⟨rfl, rfl, rfl, rfl, Or.inl rfl⟩)]
          conv_rhs => rw [← sliceN_append pixels rs 63]
          rw [show (63 : Nat) = 62 + 1 from rfl,
            sliceN_succ pixels rs 62 (by omega), hslice]
          rw [← hpc]
          rw [show List.replicate 62 c ++ [c] = List.replicate (62 + 1) c from
            (List.replicate_succ' 62 c).symm]
          rw [show rs + (62 + 1) = rs + 62 + 1 from by omega]
          simp [List.map_replicate]
        · rw [if_neg hcap]
          refine ih (rs + rl + 1) rs (some c) (rl + 1) false true (by omega)
            (Or.inr (Or.inr (Or.inl ⟨rfl, rfl, by omega, by omega, by omega,
              c, rfl, ?_⟩)))
          rw [sliceN_succ pixels rs rl (by omega), hslice, ← hpc]
          exact (List.replicate_succ' rl c).symm
      · rw [if_neg (by simp only [Option.some.injEq]; exact hpc)]
        rw [if_neg (by simp)]
        rw [if_pos rfl]
        rw [if_neg (by simp [stpWriteTransparentIndex]),
          if_neg (by simp [stpWriteTransparentIndex])]
        simp only [put, List.map_cons, List.map_nil, Option.getD_some]
        rw [ctrlRep_u8 rl (by omega)]
        rw [show ([64 + rl, u8 c] : List Nat) ++
          stpEncLoop pixels n (rs + rl + 1) (rs + rl)
            (some (pixels.getD (rs + rl) 0)) 1 false false =
          (64 + rl) :: u8 c :: stpEncLoop pixels n (rs + rl + 1) (rs + rl)
            (some (pixels.getD (rs + rl) 0)) 1 false false from by simp]
        rw [decodeSeq_rep rl c _ (by omega) (by omega)]
        rw [ih (rs + rl + 1) (rs + rl) (some (pixels.getD (rs + rl) 0)) 1
          false false (by omega)
          (Or.inr (Or.inl ⟨rfl, rfl, rfl, by omega,
            by rw [Nat.add_sub_cancel]⟩))]
        conv_rhs => rw [← sliceN_append pixels rs rl]
        rw [hslice]
        simp [List.map_replicate]
    · -- D: a direct-copy sequence in progress
      subst hds hrq hrc
      subst hrs
      by_cases hpc : pixels.getD (rs + rl - 1) 0 = pixels.getD (rs + rl) 0
      · rw [if_pos (by rw [hpc])]
        rw [if_pos rfl]
        rw [show rl + 1 - 2 = rl - 1 from by omega]
        simp only [put, List.map_cons, List.map_nil]
        rw [ctrlDir_u8 (rl - 1) (by omega)]
        rw [List.append_assoc]
        rw [show ([rl - 1] : List Nat) ++
          ((sliceN pixels rs (rl - 1)).map u8 ++
            stpEncLoop pixels n (rs + rl + 1) (rs + rl - 1)
              (some (pixels.getD (rs + rl - 1) 0)) 2 false true) =
          (rl - 1) :: ((sliceN pixels rs (rl - 1)).map u8 ++
            stpEncLoop pixels n (rs + rl + 1) (rs + rl - 1)
              (some (pixels.getD (rs + rl - 1) 0)) 2 false true) from by simp]
        rw [decodeSeq_direct (rl - 1) (sliceN pixels rs (rl - 1)) _
          (sliceN_length pixels rs (rl - 1) (by omega)) (by omega) (by omega)]
        rw [ih (rs + rl + 1) (rs + rl - 1)
          (some (pixels.getD (rs + rl - 1) 0)) 2 false true (by omega)
          (Or.inr (Or.inr (Or.inl ⟨rfl, rfl, by omega, by omega, by omega,
            pixels.getD (rs + rl - 1) 0, rfl, ?_⟩)))]
        · conv_rhs => rw [← sliceN_append pixels rs (rl - 1)]
          rw [show rs + (rl - 1) = rs + rl - 1 from by omega]
          simp
        · rw [show (2 : Nat) = 1 + 1 from rfl,
            sliceN_succ pixels (rs + rl - 1) 1 (by omega),
            show (1 : Nat) = 0 + 1 from rfl,
            sliceN_succ pixels (rs + rl - 1) 0 (by omega),
            show sliceN pixels (rs + rl - 1) 0 = [] from by simp [sliceN]]
          rw [show rs + rl - 1 + 0 = rs + rl - 1 from by omega,
            show rs + rl - 1 + (0 + 1) = rs + rl from by omega]
          rw [hpc]
          rfl
      · rw [if_neg (by simp only [Option.some.injEq]; exact hpc)]
        rw [if_pos rfl]
        by_cases hcap : rl + 1 = 63
        · rw [if_pos hcap]
          have hrl62 : rl = 62 := by omega
          subst hrl62
          simp only [put, List.map_cons, List.map_nil]
          rw [show u8 63 = 63 from by decide]
          rw [List.append_assoc]
          rw [show ([63] : List Nat) ++
            ((sliceN pixels rs (62 + 1)).map u8 ++
              stpEncLoop pixels n (rs + 62 + 1) (rs + 62 + 1)
                (some (pixels.getD (rs + 62) 0)) 0 false false) =
            63 :: ((sliceN pixels rs (62 + 1)).map u8 ++
              stpEncLoop pixels n (rs + 62 + 1) (rs + 62 + 1)
                (some (pixels.getD (rs + 62) 0)) 0 false false) from by simp]
          rw [decodeSeq_direct 63 (sliceN pixels rs (62 + 1)) _
            (sliceN_length pixels rs (62 + 1) (by omega)) (by omega)
            (by omega)]
          rw [ih (rs + 62 + 1) (rs + 62 + 1) (some (pixels.getD (rs + 62) 0))
            0 false false (by omega)
            (Or.inl ⟨rfl, rfl, rfl, rfl, Or.inr ⟨by omega,
              by rw [Nat.add_sub_cancel]⟩⟩)]
          conv_rhs => rw [← sliceN_append pixels rs (62 + 1)]
          rw [show rs + (62 + 1) = rs + 62 + 1 from by omega]
          simp
        · rw [if_neg hcap]
          exact ih (rs + rl + 1) rs (some (pixels.getD (rs + rl) 0)) (rl + 1)
            true false (by omega)
            (Or.inr (Or.inr (Or.inr ⟨rfl, rfl, by omega, by omega, by omega,
              by rw [Nat.add_sub_cancel]⟩)))

/-- Claim C1: Stamp round-trip.  For every byte-valued pixel buffer and
any declared `width * height` equal to its length (fitting the 16-bit
header fields), writing a single-frame image with `writeByVersion`
(version 1 or 2) and reading the result back with the matching
`readByVersion` yields exactly the original pixel buffer. -/
theorem stp_roundtrip (version w h : Nat) (hx hy : Int) (pixels : List Nat)
    (hv : version = 1 ∨ version = 2) (hw : w < 65536) (hh : h < 65536)
    (hwh : w * h = pixels.length) (hb : ∀ b ∈ pixels, b < 256) :
    ((stpWriteByVersion ⟨w, h, hx, hy, [pixels]⟩ version).bind
      (fun content => stpReadByVersion content version)).map StpImage.frames
      = .ok [pixels] := by
  have hdec : decodeSeq (stpEncLoop pixels pixels.length 0 0 none 0 false false)
      = some pixels := by
    rw [stpEncLoop_decodes pixels pixels.length 0 0 none 0 false false
      (by omega) (Or.inl ⟨rfl, rfl, rfl, rfl, Or.inl rfl⟩)]
    rw [List.drop_zero, map_u8_eq_self pixels hb]
  have hloop : stpLoop pixels.length .seek
      (stpEncLoop pixels pixels.length 0 0 none 0 false false) [] =
      .ok pixels := by
    rw [stpLoop_decodeSeq (stpEncLoop pixels pixels.length 0 0 none 0
      false false).length _ le_rfl pixels [] pixels.length hdec (by simp)]
    rw [List.nil_append]
  rcases hv with rfl | rfl
  · simp only [stpWriteByVersion, stpReadByVersion, stpHeaderSize]
    norm_num
    simp only [put, writeU16le, writeS16le, List.map_cons, List.map_nil,
      List.cons_append, List.nil_append, Except.bind]
    simp only [readU16le, List.getD_cons_zero, List.getD_cons_succ,
      List.drop_succ_cons, List.drop_zero]
    have hwr : u8 (1 % 256) = 1 := by decide
    have hw2 : u8 (w % 256) + 256 * u8 (w / 256 % 256) = w := by
      simp only [u8]; omega
    have hh2 : u8 (h % 256) + 256 * u8 (h / 256 % 256) = h := by
      simp only [u8]; omega
    rw [hw2, hh2, hwh, hloop]
    rfl
  · simp only [stpWriteByVersion, stpReadByVersion, stpHeaderSize]
    norm_num
    simp only [put, writeU16le, writeS16le, List.map_cons, List.map_nil,
      List.cons_append, List.nil_append, Except.bind]
    simp only [readU16le, List.getD_cons_zero, List.getD_cons_succ,
      List.drop_succ_cons, List.drop_zero]
    have hw2 : u8 (w % 256) + 256 * u8 (w / 256 % 256) = w := by
      simp only [u8]; omega
    have hh2 : u8 (h % 256) + 256 * u8 (h / 256 % 256) = h := by
      simp only [u8]; omega
    rw [hw2, hh2, hwh, hloop]
    rfl

/-- Witness for `stp_roundtrip`: a 3x2 frame with a direct pixel, an
opaque run and a repeated pair survives the version-2 round trip. -/
theorem stp_roundtrip_witness :
    ((stpWriteByVersion ⟨3, 2, 0, 0, [[1, 2, 2, 2, 9, 9]]⟩ 2).bind
      (fun content => stpReadByVersion content 2)).map StpImage.frames
      = .ok [[1, 2, 2, 2, 9, 9]] :=
  stp_roundtrip 2 3 2 0 0 [1, 2, 2, 2, 9, 9] (Or.inr rfl) (by decide)
    (by decide) (by decide) (by decide)

/-! ## Claim C3: planar round-trip

The round trip is proved for plane widths that are positive multiples of
8 (the amended claim; `planar_roundtrip_counterexample` refutes the
original one for `planeWidth = 4`).  Throughout, `P` is `planeCount`,
`k = widthBytes = (planeWidth+7)/8` with `planeWidth = 8*k`, and `m` is
the number of plane groups (rows). -/

/-- Reading back a just-written slot of a typed-array model. -/
theorem getD_set_eq (l : List Nat) (i : Nat) (v : Nat) (h : i < l.length) :
    (l.set i v).getD i 0 = v := by
  rw [List.getD_eq_getElem _ _ (by simpa using h)]
  simp [List.getElem_set_self]

/-- A write at one index leaves every other index unchanged (also when the
write was out of range and discarded). -/
theorem getD_set_ne (l : List Nat) (i j : Nat) (v : Nat) (h : i ≠ j) :
    (l.set i v).getD j 0 = l.getD j 0 := by
  by_cases hj : j < l.length
  · rw [List.getD_eq_getElem _ _ (by simpa using hj),
      List.getD_eq_getElem _ _ hj]
    exact List.getElem_set_ne h _
  · rw [List.getD_eq_default _ _ (by simpa using hj),
      List.getD_eq_default _ _ (by omega)]

/-- Pointwise characterisation of the `fromPlanar` inner pixel loop: it
preserves the buffer length, leaves indices outside `[outpos, outpos+n)`
untouched, and ORs `fpVal` into each index inside the window. -/
theorem fpWrite_spec (content : List Nat) (vs : List Nat) (msb : Bool)
    (i plane outpos : Nat) (out : List Nat) :
    ∀ n : Nat,
    (fpWrite content vs msb i plane outpos out n).length = out.length ∧
    (∀ idx, (idx < outpos ∨ outpos + n ≤ idx) →
      (fpWrite content vs msb i plane outpos out n).getD idx 0 =
        out.getD idx 0) ∧
    (∀ b < n, outpos + b < out.length →
      (fpWrite content vs msb i plane outpos out n).getD (outpos + b) 0 =
        out.getD (outpos + b) 0 ||| fpVal content vs msb i plane b) := by
  intro n
  induction n with
  | zero => exact ⟨rfl, fun _ _ => rfl, fun b hb => absurd hb (by omega)⟩
  | succ n ih =>
    obtain ⟨ihlen, ihframe, ihval⟩ := ih
    have hstep : fpWrite content vs msb i plane outpos out (n + 1) =
        (fpWrite content vs msb i plane outpos out n).set (outpos + n)
          ((fpWrite content vs msb i plane outpos out n).getD (outpos + n) 0 |||
            fpVal content vs msb i plane n) := by
      rw [fpWrite, fpWrite, List.range_succ, List.foldl_append]
      rfl
    refine ⟨by rw [hstep]; simp [ihlen], ?_, ?_⟩
    · intro idx hidx
      rw [hstep, getD_set_ne _ _ _ _ (by omega)]
      exact ihframe idx (by omega)
    · intro b hb hbound
      rcases Nat.lt_or_ge b n with hbn | hbn
      · rw [hstep, getD_set_ne _ _ _ _ (by omega)]
        exact ihval b hbn hbound
      · have hbeq : b = n := by omega
        subst hbeq
        rw [hstep, getD_set_eq _ _ _ (by omega),
          ihframe (outpos + b) (by omega)]

/-- Pointwise characterisation of the `toPlanar` inner plane loop: it
preserves the buffer length, leaves indices off the stride
`outpos + pixelByte + b*widthBytes` untouched, and ORs `tpVal` into each
stride position. -/
theorem tpWrite_spec (vs : List Nat) (widthBytes data pixelBit : Nat)
    (outpos pixelByte : Nat) (out : List Nat) (hw : 0 < widthBytes) :
    ∀ n : Nat,
    (tpWrite vs widthBytes data pixelBit outpos pixelByte out n).length =
      out.length ∧
    (∀ idx, (∀ b < n, idx ≠ outpos + pixelByte + b * widthBytes) →
      (tpWrite vs widthBytes data pixelBit outpos pixelByte out n).getD idx 0 =
        out.getD idx 0) ∧
    (∀ b < n, outpos + pixelByte + b * widthBytes < out.length →
      (tpWrite vs widthBytes data pixelBit outpos pixelByte out n).getD
          (outpos + pixelByte + b * widthBytes) 0 =
        out.getD (outpos + pixelByte + b * widthBytes) 0 |||
          tpVal vs data pixelBit b) := by
  intro n
  induction n with
  | zero => exact ⟨rfl, fun _ _ => rfl, fun b hb => absurd hb (by omega)⟩
  | succ n ih =>
    obtain ⟨ihlen, ihframe, ihval⟩ := ih
    have hstep : tpWrite vs widthBytes data pixelBit outpos pixelByte out
        (n + 1) =
        (tpWrite vs widthBytes data pixelBit outpos pixelByte out n).set
          (outpos + pixelByte + n * widthBytes)
          ((tpWrite vs widthBytes data pixelBit outpos pixelByte out n).getD
            (outpos + pixelByte + n * widthBytes) 0 |||
            tpVal vs data pixelBit n) := by
      rw [tpWrite, tpWrite, List.range_succ, List.foldl_append]
      rfl
    refine ⟨by rw [hstep]; simp [ihlen], ?_, ?_⟩
    · intro idx hidx
      rw [hstep, getD_set_ne _ _ _ _ (Ne.symm (hidx n (by omega)))]
      exact ihframe idx (fun b hb => hidx b (by omega))
    · intro b hb hbound
      rcases Nat.lt_or_ge b n with hbn | hbn
      · rw [hstep, getD_set_ne _ _ _ _ (by
          intro hcontra
          have : n * widthBytes = b * widthBytes := by omega
          have : n = b := Nat.eq_of_mul_eq_mul_right hw this
          omega)]
        exact ihval b hbn hbound
      · have hbeq : b = n := by omega
        subst hbeq
        rw [hstep, getD_set_eq _ _ _ (by omega),
          ihframe (outpos + pixelByte + b * widthBytes) (fun b2 hb2 => by
            intro hcontra
            have : b2 * widthBytes = b * widthBytes := by omega
            have : b2 = b := Nat.eq_of_mul_eq_mul_right hw this
            omega)]

/-- The value of linear pixel `b` of pixel group `g` after the first `J`
planes of the group have been merged by `fromPlanar` (plane `j` of group
`g` is chunk `g*planeCount + j`, read at byte offset
`(g*planeCount + j) * widthBytes`). -/
def fpPixUpTo (content : List Nat) (P k : Nat) (vs : List Nat) (msb : Bool)
    (J g b : Nat) : Nat :=
  (List.range J).foldl
    (fun acc j => acc ||| fpVal content vs msb ((g * P + j) * k) j b) 0

/-- Unfolding one plane of `fpPixUpTo`. -/
theorem fpPixUpTo_succ (content : List Nat) (P k : Nat) (vs : List Nat)
    (msb : Bool) (J g b : Nat) :
    fpPixUpTo content P k vs msb (J + 1) g b =
      fpPixUpTo content P k vs msb J g b |||
        fpVal content vs msb ((g * P + J) * k) J b := by
  rw [fpPixUpTo, fpPixUpTo, List.range_succ, List.foldl_append]
  rfl

/-- Every read of a zero-filled buffer gives 0, in or out of range. -/
theorem getD_replicate_zero (n idx : Nat) :
    (List.replicate n (0 : Nat)).getD idx 0 = 0 := by
  by_cases h : idx < n
  · rw [List.getD_eq_getElem _ _ (by simpa using h), List.getElem_replicate]
  · rw [List.getD_eq_default _ _ (by simpa using h)]

/-- Chunk index arithmetic: `(g*P + r) % P = r` for `r < P`. -/
theorem mod_cancel_left (g P r : Nat) (hr : r < P) : (g * P + r) % P = r := by
  rw [Nat.add_comm, Nat.mul_comm, Nat.add_mul_mod_self_left]
  exact Nat.mod_eq_of_lt hr

/-- State invariant of the `fromPlanar` outer loop after `g` whole pixel
groups (`g*planeCount` chunks): the output position is `8*k*g`
(`planeWidth = 8*k` pixels per group), finished groups hold the fully
merged pixel values `fpPixUpTo P`, and everything beyond is still 0.
Proved by an outer induction on groups with an inner induction on the
planes of the current group. -/
theorem fromPlanar_state (content : List Nat) (P k m : Nat) (vs : List Nat)
    (msb : Bool) (hP : 0 < P) (hk : 0 < k) :
    ∀ g ≤ m,
    ((List.range (g * P)).foldl (fpChunk content P k (8 * k) vs msb)
        (List.replicate (m * (8 * k)) 0, 0)).2 = 8 * k * g ∧
    ((List.range (g * P)).foldl (fpChunk content P k (8 * k) vs msb)
        (List.replicate (m * (8 * k)) 0, 0)).1.length = m * (8 * k) ∧
    (∀ g' < g, ∀ b < 8 * k,
      ((List.range (g * P)).foldl (fpChunk content P k (8 * k) vs msb)
          (List.replicate (m * (8 * k)) 0, 0)).1.getD (8 * k * g' + b) 0 =
        fpPixUpTo content P k vs msb P g' b) ∧
    (∀ idx, 8 * k * g ≤ idx →
      ((List.range (g * P)).foldl (fpChunk content P k (8 * k) vs msb)
          (List.replicate (m * (8 * k)) 0, 0)).1.getD idx 0 = 0) := by
  intro g
  induction g with
  | zero =>
    intro _
    refine ⟨by simp, by simp, ?_, ?_⟩
    · intro g' hg'
      exact absurd hg' (by omega)
    · intro idx _
      simpa using getD_replicate_zero (m * (8 * k)) idx
  | succ g ihg =>
    intro hgm
    obtain ⟨ih2, ihlen, ihdone, ihzero⟩ := ihg (by omega)
    -- process the P chunks of group g, by induction on r ≤ P
    have hgm' : g < m := by omega
    have key : ∀ r ≤ P,
        ((List.range (g * P + r)).foldl (fpChunk content P k (8 * k) vs msb)
            (List.replicate (m * (8 * k)) 0, 0)).2 =
          8 * k * g + (if r = P then 8 * k else 0) ∧
        ((List.range (g * P + r)).foldl (fpChunk content P k (8 * k) vs msb)
            (List.replicate (m * (8 * k)) 0, 0)).1.length = m * (8 * k) ∧
        (∀ g' < g, ∀ b < 8 * k,
          ((List.range (g * P + r)).foldl (fpChunk content P k (8 * k) vs msb)
              (List.replicate (m * (8 * k)) 0, 0)).1.getD (8 * k * g' + b) 0 =
            fpPixUpTo content P k vs msb P g' b) ∧
        (∀ b < 8 * k,
          ((List.range (g * P + r)).foldl (fpChunk content P k (8 * k) vs msb)
              (List.replicate (m * (8 * k)) 0, 0)).1.getD (8 * k * g + b) 0 =
            fpPixUpTo content P k vs msb r g b) ∧
        (∀ idx, 8 * k * g + 8 * k ≤ idx →
          ((List.range (g * P + r)).foldl (fpChunk content P k (8 * k) vs msb)
              (List.replicate (m * (8 * k)) 0, 0)).1.getD idx 0 = 0) := by
      intro r
      induction r with
      | zero =>
        intro _
        rw [Nat.add_zero]
        refine ⟨?_, ihlen, ihdone, ?_, ?_⟩
        · rw [ih2, if_neg (by omega)]
          omega
        · intro b hb
          have := ihzero (8 * k * g + b) (by omega)
          rw [this, fpPixUpTo]
          rfl
        · intro idx hidx
          exact ihzero idx (by omega)
      | succ r ihr =>
        intro hrP
        obtain ⟨jh2, jhlen, jhdone, jhcur, jhzero⟩ := ihr (by omega)
        have hstep : (List.range (g * P + (r + 1))).foldl
            (fpChunk content P k (8 * k) vs msb)
            (List.replicate (m * (8 * k)) 0, 0) =
            fpChunk content P k (8 * k) vs msb
              ((List.range (g * P + r)).foldl
                (fpChunk content P k (8 * k) vs msb)
                (List.replicate (m * (8 * k)) 0, 0)) (g * P + r) := by
          rw [show g * P + (r + 1) = (g * P + r) + 1 from rfl, List.range_succ,
            List.foldl_append]
          rfl
        set st := (List.range (g * P + r)).foldl
          (fpChunk content P k (8 * k) vs msb)
          (List.replicate (m * (8 * k)) 0, 0) with hst
        have hrlt : r < P := by omega
        have hplane : (g * P + r) % P = r := mod_cancel_left g P r hrlt
        have hchunk : fpChunk content P k (8 * k) vs msb st (g * P + r) =
            (fpWrite content vs msb ((g * P + r) * k) r st.2 st.1 (8 * k),
             if r = P - 1 then st.2 + 8 * k else st.2) := by
          rw [fpChunk, hplane]
          by_cases hrp : r = P - 1
          · rw [if_pos hrp, if_pos hrp]
          · rw [if_neg hrp, if_neg hrp]
        obtain ⟨wlen, wframe, wval⟩ := fpWrite_spec content vs msb
          ((g * P + r) * k) r st.2 st.1 (8 * k)
        have h2' : st.2 = 8 * k * g := by
          rw [jh2, if_neg (by omega)]
          omega
        have hbound : 8 * k * g + 8 * k ≤ m * (8 * k) := by
          calc 8 * k * g + 8 * k = (g + 1) * (8 * k) := by ring
          _ ≤ m * (8 * k) := Nat.mul_le_mul_right _ (by omega)
        refine ⟨?_, ?_, ?_, ?_, ?_⟩
        · rw [hstep, hchunk]
          by_cases hrp : r = P - 1
          · simp only [if_pos hrp, h2']
            rw [if_pos (by omega)]
          · simp only [if_neg hrp]
            rw [jh2, if_neg (by omega), if_neg (by omega)]
        · rw [hstep, hchunk]
          simp only [wlen, jhlen]
        · intro g' hg' b hb
          rw [hstep, hchunk]
          rw [wframe (8 * k * g' + b) (by
            left
            rw [h2']
            calc 8 * k * g' + b < 8 * k * g' + 8 * k := by omega
            _ = 8 * k * (g' + 1) := by ring
            _ ≤ 8 * k * g := Nat.mul_le_mul_left _ (by omega))]
          exact jhdone g' hg' b hb
        · intro b hb
          rw [hstep, hchunk]
          have hv := wval b hb (by rw [h2', jhlen]; omega)
          rw [h2'] at hv
          rw [h2', hv, jhcur b hb, fpPixUpTo_succ]
        · intro idx hidx
          rw [hstep, hchunk]
          rw [wframe idx (by right; rw [h2']; omega)]
          exact jhzero idx hidx
    obtain ⟨k2, klen, kdone, kcur, kzero⟩ := key P (le_refl P)
    have hrange : (g + 1) * P = g * P + P := by ring
    rw [hrange]
    refine ⟨?_, klen, ?_, ?_⟩
    · rw [k2, if_pos rfl]; ring
    · intro g' hg' b hb
      rcases Nat.lt_or_ge g' g with h | h
      · exact kdone g' h b hb
      · have : g' = g := by omega
        subst this
        exact kcur b hb
    · intro idx hidx
      refine kzero idx ?_
      calc 8 * k * g + 8 * k = 8 * k * (g + 1) := by ring
      _ ≤ idx := hidx

/-- The value of planar output byte `(g, j, t)` (group `g`, plane `j`,
byte `t` of the plane row) after `toPlanar` has processed the first `R`
pixels of group `g`. -/
def tpByteUpTo (content : List Nat) (P k : Nat) (vs : List Nat) (msb : Bool)
    (R g j t : Nat) : Nat :=
  (List.range R).foldl
    (fun acc r => acc |||
      if r / 8 = t then
        tpVal vs (content.getD (g * (8 * k) + r) 0)
          (if msb then 7 - r % 8 else r % 8) j
      else 0) 0

/-- Unfolding one pixel of `tpByteUpTo`. -/
theorem tpByteUpTo_succ (content : List Nat) (P k : Nat) (vs : List Nat)
    (msb : Bool) (R g j t : Nat) :
    tpByteUpTo content P k vs msb (R + 1) g j t =
      tpByteUpTo content P k vs msb R g j t |||
        (if R / 8 = t then
          tpVal vs (content.getD (g * (8 * k) + R) 0)
            (if msb then 7 - R % 8 else R % 8) j
        else 0) := by
  rw [tpByteUpTo, tpByteUpTo, List.range_succ, List.foldl_append]
  rfl

/-- A plane-strided byte position `j*k + t` with `t < k` determines the
plane `j` and offset `t` uniquely. -/
theorem stride_unique (k j t j' t' : Nat) (hk : 0 < k) (ht : t < k)
    (ht' : t' < k) (h : j * k + t = j' * k + t') : j = j' ∧ t = t' := by
  have e1 : (j * k + t) / k = j := by
    rw [Nat.mul_comm, Nat.mul_add_div hk, Nat.div_eq_of_lt ht]
    omega
  have e2 : (j' * k + t') / k = j' := by
    rw [Nat.mul_comm, Nat.mul_add_div hk, Nat.div_eq_of_lt ht']
    omega
  have hj : j = j' := by rw [← e1, ← e2, h]
  subst hj
  exact ⟨rfl, by omega⟩

/-- State invariant of the `toPlanar` outer loop after `g` whole pixel
groups (`g*(8*k)` pixels): the output position is `planeCount*k*g`,
finished groups hold the fully merged planar bytes `tpByteUpTo (8*k)`,
and everything beyond is still 0. -/
theorem toPlanar_state (content : List Nat) (P k m : Nat) (vs : List Nat)
    (msb : Bool) (hP : 0 < P) (hk : 0 < k) :
    ∀ g ≤ m,
    ((List.range (g * (8 * k))).foldl (tpPixel content P k (8 * k) vs msb)
        (List.replicate (m * (P * k)) 0, 0)).2 = P * k * g ∧
    ((List.range (g * (8 * k))).foldl (tpPixel content P k (8 * k) vs msb)
        (List.replicate (m * (P * k)) 0, 0)).1.length = m * (P * k) ∧
    (∀ g' < g, ∀ j < P, ∀ t < k,
      ((List.range (g * (8 * k))).foldl (tpPixel content P k (8 * k) vs msb)
          (List.replicate (m * (P * k)) 0, 0)).1.getD
        (P * k * g' + (j * k + t)) 0 =
        tpByteUpTo content P k vs msb (8 * k) g' j t) ∧
    (∀ idx, P * k * g ≤ idx →
      ((List.range (g * (8 * k))).foldl (tpPixel content P k (8 * k) vs msb)
          (List.replicate (m * (P * k)) 0, 0)).1.getD idx 0 = 0) := by
  intro g
  induction g with
  | zero =>
    intro _
    refine ⟨by simp, by simp, ?_, ?_⟩
    · intro g' hg'
      exact absurd hg' (by omega)
    · intro idx _
      simpa using getD_replicate_zero (m * (P * k)) idx
  | succ g ihg =>
    intro hgm
    obtain ⟨ih2, ihlen, ihdone, ihzero⟩ := ihg (by omega)
    have hgm' : g < m := by omega
    have key : ∀ r ≤ 8 * k,
        ((List.range (g * (8 * k) + r)).foldl
            (tpPixel content P k (8 * k) vs msb)
            (List.replicate (m * (P * k)) 0, 0)).2 =
          P * k * g + (if r = 8 * k then P * k else 0) ∧
        ((List.range (g * (8 * k) + r)).foldl
            (tpPixel content P k (8 * k) vs msb)
            (List.replicate (m * (P * k)) 0, 0)).1.length = m * (P * k) ∧
        (∀ g' < g, ∀ j < P, ∀ t < k,
          ((List.range (g * (8 * k) + r)).foldl
              (tpPixel content P k (8 * k) vs msb)
              (List.replicate (m * (P * k)) 0, 0)).1.getD
            (P * k * g' + (j * k + t)) 0 =
            tpByteUpTo content P k vs msb (8 * k) g' j t) ∧
        (∀ j < P, ∀ t < k,
          ((List.range (g * (8 * k) + r)).foldl
              (tpPixel content P k (8 * k) vs msb)
              (List.replicate (m * (P * k)) 0, 0)).1.getD
            (P * k * g + (j * k + t)) 0 =
            tpByteUpTo content P k vs msb r g j t) ∧
        (∀ idx, P * k * g + P * k ≤ idx →
          ((List.range (g * (8 * k) + r)).foldl
              (tpPixel content P k (8 * k) vs msb)
              (List.replicate (m * (P * k)) 0, 0)).1.getD idx 0 = 0) := by
      intro r
      induction r with
      | zero =>
        intro _
        rw [Nat.add_zero]
        refine ⟨?_, ihlen, ihdone, ?_, ?_⟩
        · rw [ih2, if_neg (by omega)]
          omega
        · intro j hj t htk
          have := ihzero (P * k * g + (j * k + t)) (by omega)
          rw [this, tpByteUpTo]
          rfl
        · intro idx hidx
          exact ihzero idx (by omega)
      | succ r ihr =>
        intro hrP
        obtain ⟨jh2, jhlen, jhdone, jhcur, jhzero⟩ := ihr (by omega)
        have hrlt : r < 8 * k := by omega
        have hstep : (List.range (g * (8 * k) + (r + 1))).foldl
            (tpPixel content P k (8 * k) vs msb)
            (List.replicate (m * (P * k)) 0, 0) =
            tpPixel content P k (8 * k) vs msb
              ((List.range (g * (8 * k) + r)).foldl
                (tpPixel content P k (8 * k) vs msb)
                (List.replicate (m * (P * k)) 0, 0)) (g * (8 * k) + r) := by
          rw [show g * (8 * k) + (r + 1) = (g * (8 * k) + r) + 1 from rfl,
            List.range_succ, List.foldl_append]
          rfl
        set st := (List.range (g * (8 * k) + r)).foldl
          (tpPixel content P k (8 * k) vs msb)
          (List.replicate (m * (P * k)) 0, 0) with hst
        have heq8 : g * (8 * k) + r = 8 * (g * k) + r := by ring
        have hmod8 : (g * (8 * k) + r) % 8 = r % 8 := by
          rw [heq8, Nat.mul_add_mod]
        have hdivmod : (g * (8 * k) + r) / 8 % k = r / 8 := by
          rw [heq8, Nat.mul_add_div (by norm_num)]
          rw [Nat.add_comm, Nat.mul_comm, Nat.add_mul_mod_self_left]
          exact Nat.mod_eq_of_lt (by omega)
        have hmod8k : (g * (8 * k) + r) % (8 * k) = r :=
          mod_cancel_left g (8 * k) r hrlt
        have hchunk : tpPixel content P k (8 * k) vs msb st
            (g * (8 * k) + r) =
            (tpWrite vs k (content.getD (g * (8 * k) + r) 0)
              (if msb then 7 - r % 8 else r % 8) st.2 (r / 8) st.1 P,
             if r = 8 * k - 1 then st.2 + P * k else st.2) := by
          rw [tpPixel]
          simp only [hmod8, hdivmod, hmod8k]
          by_cases hrp : r = 8 * k - 1
          · rw [if_pos hrp, if_pos hrp]
          · rw [if_neg hrp, if_neg hrp]
        obtain ⟨wlen, wframe, wval⟩ := tpWrite_spec vs k
          (content.getD (g * (8 * k) + r) 0)
          (if msb then 7 - r % 8 else r % 8) st.2 (r / 8) st.1 hk P
        have h2' : st.2 = P * k * g := by
          rw [jh2, if_neg (by omega)]
          omega
        have hbound : P * k * g + P * k ≤ m * (P * k) := by
          calc P * k * g + P * k = (g + 1) * (P * k) := by ring
          _ ≤ m * (P * k) := Nat.mul_le_mul_right _ (by omega)
        have hr8 : r / 8 < k := by omega
        refine ⟨?_, ?_, ?_, ?_, ?_⟩
        · rw [hstep, hchunk]
          by_cases hrp : r = 8 * k - 1
          · simp only [if_pos hrp, h2']
            rw [if_pos (by omega)]
          · simp only [if_neg hrp]
            rw [jh2, if_neg (by omega), if_neg (by omega)]
        · rw [hstep, hchunk]
          simp only [wlen, jhlen]
        · intro g' hg' j hj t htk
          rw [hstep, hchunk]
          have hjk : j * k + k ≤ P * k := by
            have h1 : (j + 1) * k ≤ P * k := Nat.mul_le_mul_right _ (by omega)
            have h2 : (j + 1) * k = j * k + k := by ring
            omega
          have hlt : P * k * g' + (j * k + t) < P * k * g := by
            calc P * k * g' + (j * k + t) < P * k * g' + P * k := by omega
            _ = P * k * (g' + 1) := by ring
            _ ≤ P * k * g := Nat.mul_le_mul_left _ (by omega)
          rw [wframe (P * k * g' + (j * k + t)) (fun b hb => by
            intro hcontra
            have hbk : b * k + k ≤ P * k := by
              have h1 : (b + 1) * k ≤ P * k := Nat.mul_le_mul_right _ (by omega)
              have h2 : (b + 1) * k = b * k + k := by ring
              omega
            rw [h2'] at hcontra
            omega)]
          exact jhdone g' hg' j hj t htk
        · intro j hj t htk
          rw [hstep, hchunk]
          have hjk : j * k + k ≤ P * k := by
            have h1 : (j + 1) * k ≤ P * k := Nat.mul_le_mul_right _ (by omega)
            have h2 : (j + 1) * k = j * k + k := by ring
            omega
          by_cases ht : t = r / 8
          · have hv := wval j hj (by rw [h2', jhlen]; omega)
            rw [h2'] at hv
            have hpos : P * k * g + (j * k + t) = P * k * g + r / 8 + j * k :=
              by omega
            rw [h2', hpos, hv, ← hpos, jhcur j hj t htk, tpByteUpTo_succ,
              if_pos ht.symm]
          · rw [wframe (P * k * g + (j * k + t)) (fun b hb => by
              intro hcontra
              rw [h2'] at hcontra
              have hbt : j * k + t = b * k + r / 8 := by omega
              obtain ⟨hb1, hb2⟩ := stride_unique k j t b (r / 8) hk htk hr8 hbt
              exact ht hb2)]
            rw [jhcur j hj t htk, tpByteUpTo_succ, if_neg (fun hc => ht hc.symm)]
            simp
        · intro idx hidx
          rw [hstep, hchunk]
          rw [wframe idx (fun b hb => by
            intro hcontra
            have hbk : b * k + k ≤ P * k := by
              have h1 : (b + 1) * k ≤ P * k := Nat.mul_le_mul_right _ (by omega)
              have h2 : (b + 1) * k = b * k + k := by ring
              omega
            rw [h2'] at hcontra
            omega)]
          exact jhzero idx hidx
    obtain ⟨k2, klen, kdone, kcur, kzero⟩ := key (8 * k) (le_refl _)
    have hrange : (g + 1) * (8 * k) = g * (8 * k) + 8 * k := by ring
    rw [hrange]
    refine ⟨?_, klen, ?_, ?_⟩
    · rw [k2, if_pos rfl]; ring
    · intro g' hg' j hj t htk
      rcases Nat.lt_or_ge g' g with h | h
      · exact kdone g' h j hj t htk
      · have : g' = g := by omega
        subst this
        exact kcur j hj t htk
    · intro idx hidx
      refine kzero idx ?_
      calc P * k * g + P * k = P * k * (g + 1) := by ring
      _ ≤ idx := hidx

/-- `fromPlanar` on a buffer of `m` whole plane groups passes all guards
and runs its chunk fold `m*planeCount` times on a `m*planeWidth`-pixel
output buffer. -/
theorem fromPlanar_eval (content : List Nat) (P k m : Nat) (vs : List Nat)
    (msb : Bool) (hP : 0 < P) (hk : 0 < k) (hm : 0 < m)
    (hlen : content.length = m * (P * k)) :
    fromPlanar content P (8 * k) vs msb =
      Except.ok ((List.range (m * P)).foldl
        (fpChunk content P k (8 * k) vs msb)
        (List.replicate (m * (8 * k)) 0, 0)).1 := by
  have hne : ¬ content.length = 0 := by
    rw [hlen]
    have := Nat.mul_pos hm (Nat.mul_pos hP hk)
    omega
  have hdvd : P ∣ content.length * 8 := ⟨m * k * 8, by rw [hlen]; ring⟩
  have hwb : (8 * k + 7) / 8 = k := by omega
  have hnum : (content.length + k - 1) / k = m * P := by
    rw [hlen]
    have h1 : m * (P * k) + k - 1 = k * (m * P) + (k - 1) := by
      have h2 : m * (P * k) = k * (m * P) := by ring
      omega
    rw [h1, Nat.mul_add_div hk, Nat.div_eq_of_lt (by omega)]
    omega
  have hinit : content.length * 8 / P = m * (8 * k) := by
    rw [hlen]
    have h1 : m * (P * k) * 8 = P * (m * (8 * k)) := by ring
    rw [h1, Nat.mul_div_cancel_left _ hP]
  rw [fromPlanar, if_neg hne, if_neg (not_not_intro hdvd)]
  simp only [hwb, hnum, hinit, if_neg (by omega : ¬ k = 0)]

/-- `toPlanar` on a buffer of `m` whole pixel rows passes all guards and
runs its pixel fold over every pixel on a `m*planeCount*k`-byte output
buffer. -/
theorem toPlanar_eval (content : List Nat) (P k m : Nat) (vs : List Nat)
    (msb : Bool) (hP : 0 < P) (hk : 0 < k) (hm : 0 < m)
    (hlen : content.length = m * (8 * k)) :
    toPlanar content P (8 * k) vs msb =
      Except.ok ((List.range (m * (8 * k))).foldl
        (tpPixel content P k (8 * k) vs msb)
        (List.replicate (m * (P * k)) 0, 0)).1 := by
  have hne : ¬ content.length = 0 := by
    rw [hlen]
    have := Nat.mul_pos hm (Nat.mul_pos (by omega : (0:Nat) < 8) hk)
    omega
  have hdvd : (8:Nat) ∣ content.length * P := ⟨m * k * P, by rw [hlen]; ring⟩
  have hwb : (8 * k + 7) / 8 = k := by omega
  have hinit : content.length * P / 8 = m * (P * k) := by
    rw [hlen]
    have h1 : m * (8 * k) * P = 8 * (m * (P * k)) := by ring
    rw [h1, Nat.mul_div_cancel_left _ (by omega : (0:Nat) < 8)]
  have hinit2 : m * (8 * k) * P / 8 = m * (P * k) := by
    have h1 : m * (8 * k) * P = 8 * (m * (P * k)) := by ring
    rw [h1, Nat.mul_div_cancel_left _ (by omega : (0:Nat) < 8)]
  rw [toPlanar, if_neg hne, if_neg (not_not_intro hdvd)]
  simp only [hwb, hinit, hinit2, if_neg (by omega : ¬ k = 0), hlen]

/-- A bit of an OR-fold is set exactly when some summand has it set. -/
theorem testBit_orFold (f : Nat → Nat) (e : Nat) :
    ∀ n : Nat,
    (((List.range n).foldl (fun acc j => acc ||| f j) 0).testBit e = true ↔
      ∃ j, j < n ∧ (f j).testBit e = true) := by
  intro n
  induction n with
  | zero =>
    simp [Nat.zero_testBit]
  | succ n ih =>
    rw [List.range_succ, List.foldl_append]
    simp only [List.foldl_cons, List.foldl_nil]
    rw [Nat.testBit_lor, Bool.or_eq_true, ih]
    constructor
    · rintro (⟨j, hj, hfj⟩ | hfn)
      · exact ⟨j, by omega, hfj⟩
      · exact ⟨n, by omega, hfn⟩
    · rintro ⟨j, hj, hfj⟩
      rcases Nat.lt_or_ge j n with h | h
      · exact Or.inl ⟨j, h, hfj⟩
      · have : j = n := by omega
        subst this
        exact Or.inr hfj

/-- The JS bit test `(x >> s) & 1 == 1` is `Nat.testBit x s`. -/
theorem and_one_testBit (a s : Nat) :
    ((a >>> s) &&& 1 = 1) ↔ a.testBit s = true := by
  rw [Nat.and_one_is_mod, Nat.shiftRight_eq_div_pow, Nat.testBit_to_div_mod]
  simp

/-- `tpVal` produces either the single bit `2^pixelBit` or nothing. -/
theorem tpVal_eq (vs : List Nat) (data pixelBit b : Nat) :
    tpVal vs data pixelBit b =
      if data &&& vs.getD b 0 ≠ 0 then 2 ^ pixelBit else 0 := by
  rw [tpVal, Nat.shiftLeft_eq, Nat.one_mul]

/-- Bit test of a conditional single-bit value. -/
theorem testBit_if_pow (c : Prop) [Decidable c] (p e : Nat) :
    ((if c then 2 ^ p else 0).testBit e = true) ↔ c ∧ p = e := by
  by_cases hc : c
  · rw [if_pos hc]
    by_cases hpe : p = e
    · subst hpe
      simp [Nat.testBit_two_pow_self, hc]
    · simp [Nat.testBit_two_pow_of_ne hpe, hc, hpe]
  · rw [if_neg hc]
    simp [Nat.zero_testBit, hc]

/-- Bit test of a conditionally contributed value. -/
theorem testBit_if_val (c : Prop) [Decidable c] (v e : Nat) :
    ((if c then v else 0).testBit e = true) ↔ c ∧ v.testBit e = true := by
  by_cases hc : c
  · rw [if_pos hc]; simp [hc]
  · rw [if_neg hc]; simp [Nat.zero_testBit, hc]

/-- The JS mask test `x & v != 0` for a single-bit `v = 2^e` is
`Nat.testBit x e`. -/
theorem and_two_pow_ne_zero (x e : Nat) :
    (x &&& 2 ^ e ≠ 0) ↔ x.testBit e = true := by
  rw [Nat.and_two_pow]
  cases h : x.testBit e <;> simp [h, Nat.two_pow_pos e |>.ne']

/-- Bytes have no bits at positions 8 and above. -/
theorem testBit_byte_false (x e : Nat) (hx : x < 256) (he : 8 ≤ e) :
    x.testBit e = false := by
  apply Nat.testBit_eq_false_of_lt
  calc x < 256 := hx
  _ = 2 ^ 8 := by norm_num
  _ ≤ 2 ^ e := Nat.pow_le_pow_right (by omega) he

/-- The key inversion step for the planar-to-linear direction: because the
plane values are pairwise distinct single bits, masking a merged pixel
with plane `j`'s value recovers exactly plane `j`'s original bit. -/
theorem fpPix_and_plane (x vs : List Nat) (msb : Bool) (P k g r j : Nat)
    (hj : j < P)
    (hpow : ∀ v ∈ vs, ∃ e, v = 2 ^ e) (hnd : vs.Nodup)
    (hPl : vs.length = P) :
    (fpPixUpTo x P k vs msb P g r &&& vs.getD j 0 ≠ 0) ↔
      (x.getD ((g * P + j) * k + r / 8) 0 >>>
        (if msb then 7 - r % 8 else r % 8)) &&& 1 = 1 := by
  have hjl : j < vs.length := by omega
  have hmem : vs.getD j 0 ∈ vs := by
    rw [List.getD_eq_getElem _ _ hjl]
    exact List.getElem_mem hjl
  obtain ⟨ej, hvj⟩ := hpow (vs.getD j 0) hmem
  rw [hvj, and_two_pow_ne_zero, fpPixUpTo,
    testBit_orFold (fun j2 => fpVal x vs msb ((g * P + j2) * k) j2 r) ej P]
  constructor
  · rintro ⟨j2, hj2, hb⟩
    rw [fpVal, testBit_if_val] at hb
    obtain ⟨hc, hb2⟩ := hb
    have hj2l : j2 < vs.length := by omega
    have hmem2 : vs.getD j2 0 ∈ vs := by
      rw [List.getD_eq_getElem _ _ hj2l]
      exact List.getElem_mem hj2l
    obtain ⟨e2, hv2⟩ := hpow (vs.getD j2 0) hmem2
    rw [hv2] at hb2
    have he2j : e2 = ej := by
      by_contra hne
      rw [Nat.testBit_two_pow_of_ne hne] at hb2
      exact Bool.noConfusion hb2
    have hgeq : vs.getD j2 0 = vs.getD j 0 := by rw [hv2, hvj, he2j]
    have hj2j : j2 = j := by
      have h1 : vs[j2] = vs[j] := by
        rw [← List.getD_eq_getElem vs 0 hj2l, ← List.getD_eq_getElem vs 0 hjl]
        exact hgeq
      exact (hnd.getElem_inj_iff).mp h1
    subst hj2j
    exact hc
  · intro hc
    refine ⟨j, hj, ?_⟩
    rw [fpVal, testBit_if_val]
    exact ⟨hc, by rw [hvj]; exact Nat.testBit_two_pow_self⟩

/-- Every bit position below 8 is hit by the pixel-bit mapping (in either
byte order). -/
theorem bitpos_surj (msb : Bool) (e : Nat) (he : e < 8) :
    ∃ q, q < 8 ∧ (if msb then 7 - q else q) = e := by
  cases msb
  · exact ⟨e, by omega, by simp⟩
  · exact ⟨7 - e, by omega, by simp; omega⟩

/-- Re-encoding a decoded pixel group reproduces each original planar
byte: `tpByteUpTo` over the merged pixels equals the source byte. -/
theorem tpByte_of_fpPix (x vs : List Nat) (msb : Bool)
    (P k m g j t : Nat) (lin : List Nat)
    (hk : 0 < k) (hg : g < m) (hj : j < P) (ht : t < k)
    (hxlen : x.length = m * (P * k))
    (hx : ∀ v ∈ x, v < 256)
    (hpow : ∀ v ∈ vs, ∃ e, v = 2 ^ e) (hnd : vs.Nodup) (hPl : vs.length = P)
    (hlin : ∀ b < 8 * k, lin.getD (8 * k * g + b) 0 =
      fpPixUpTo x P k vs msb P g b) :
    tpByteUpTo lin P k vs msb (8 * k) g j t =
      x.getD ((g * P + j) * k + t) 0 := by
  have hB : x.getD ((g * P + j) * k + t) 0 < 256 := by
    by_cases hlt : (g * P + j) * k + t < x.length
    · rw [List.getD_eq_getElem _ _ hlt]
      exact hx _ (List.getElem_mem hlt)
    · rw [List.getD_eq_default _ _ (by omega)]
      omega
  apply Nat.eq_of_testBit_eq
  intro e
  rw [Bool.eq_iff_iff]
  rw [tpByteUpTo, testBit_orFold (fun r => if r / 8 = t then
        tpVal vs (lin.getD (g * (8 * k) + r) 0)
          (if msb then 7 - r % 8 else r % 8) j
      else 0) e (8 * k)]
  constructor
  · rintro ⟨r, hr, hfr⟩
    rw [testBit_if_val] at hfr
    obtain ⟨hrt, hfr2⟩ := hfr
    rw [tpVal_eq, testBit_if_pow] at hfr2
    obtain ⟨hand, hpe⟩ := hfr2
    have hidx : g * (8 * k) + r = 8 * k * g + r := by ring
    rw [hidx, hlin r hr, fpPix_and_plane x vs msb P k g r j hj hpow hnd hPl,
      and_one_testBit] at hand
    rw [hrt] at hand
    rw [← hpe]
    exact hand
  · intro hBe
    have he8 : e < 8 := by
      by_contra hge
      rw [testBit_byte_false _ _ hB (by omega)] at hBe
      exact Bool.noConfusion hBe
    obtain ⟨q, hq8, hqe⟩ := bitpos_surj msb e he8
    refine ⟨8 * t + q, by omega, ?_⟩
    rw [testBit_if_val]
    have hdiv : (8 * t + q) / 8 = t := by omega
    have hmod : (8 * t + q) % 8 = q := by omega
    refine ⟨hdiv, ?_⟩
    rw [tpVal_eq, testBit_if_pow]
    have hidx : g * (8 * k) + (8 * t + q) = 8 * k * g + (8 * t + q) := by
      ring
    rw [hidx, hlin (8 * t + q) (by omega),
      fpPix_and_plane x vs msb P k g (8 * t + q) j hj hpow hnd hPl,
      and_one_testBit, hdiv, hmod, hqe]
    exact ⟨hBe, rfl⟩

/-- A bit of a planar output byte is set exactly when the corresponding
source pixel carries the plane's value. -/
theorem tpByte_testBit (y vs : List Nat) (msb : Bool) (P k g j b : Nat)
    (hb : b < 8 * k) :
    ((tpByteUpTo y P k vs msb (8 * k) g j (b / 8)).testBit
      (if msb then 7 - b % 8 else b % 8) = true) ↔
      (y.getD (g * (8 * k) + b) 0 &&& vs.getD j 0 ≠ 0) := by
  rw [tpByteUpTo, testBit_orFold (fun r => if r / 8 = b / 8 then
        tpVal vs (y.getD (g * (8 * k) + r) 0)
          (if msb then 7 - r % 8 else r % 8) j
      else 0) (if msb then 7 - b % 8 else b % 8) (8 * k)]
  constructor
  · rintro ⟨r, hr, hfr⟩
    rw [testBit_if_val] at hfr
    obtain ⟨hrt, hfr2⟩ := hfr
    rw [tpVal_eq, testBit_if_pow] at hfr2
    obtain ⟨hand, hpe⟩ := hfr2
    have hrm : r % 8 = b % 8 := by
      cases msb
      · simpa using hpe
      · simp at hpe
        omega
    have hrb : r = b := by omega
    subst hrb
    exact hand
  · intro hand
    refine ⟨b, hb, ?_⟩
    rw [testBit_if_val]
    refine ⟨rfl, ?_⟩
    rw [tpVal_eq, testBit_if_pow]
    exact ⟨hand, rfl⟩

/-- Decoding an encoded pixel reproduces it: `fpPixUpTo` over the planar
bytes equals the source pixel, provided its bits all lie in
`planeValues`. -/
theorem fpPix_of_tpByte (y vs : List Nat) (msb : Bool)
    (P k m g b : Nat) (pl : List Nat)
    (hk : 0 < k) (hg : g < m) (hb : b < 8 * k)
    (hylen : y.length = m * (8 * k))
    (hcov : ∀ p ∈ y, ∀ e, p.testBit e = true → 2 ^ e ∈ vs)
    (hpow : ∀ v ∈ vs, ∃ e, v = 2 ^ e) (hnd : vs.Nodup) (hPl : vs.length = P)
    (hpl : ∀ j < P, ∀ t < k, pl.getD (P * k * g + (j * k + t)) 0 =
      tpByteUpTo y P k vs msb (8 * k) g j t) :
    fpPixUpTo pl P k vs msb P g b = y.getD (g * (8 * k) + b) 0 := by
  apply Nat.eq_of_testBit_eq
  intro e
  rw [Bool.eq_iff_iff]
  rw [fpPixUpTo,
    testBit_orFold (fun j => fpVal pl vs msb ((g * P + j) * k) j b) e P]
  constructor
  · rintro ⟨j, hj, hfj⟩
    rw [fpVal, testBit_if_val] at hfj
    obtain ⟨hc, hbj⟩ := hfj
    have hidx : (g * P + j) * k + b / 8 = P * k * g + (j * k + b / 8) := by
      ring
    rw [hidx, hpl j hj (b / 8) (by omega), and_one_testBit,
      tpByte_testBit y vs msb P k g j b hb] at hc
    have hjl : j < vs.length := by omega
    have hmem : vs.getD j 0 ∈ vs := by
      rw [List.getD_eq_getElem _ _ hjl]
      exact List.getElem_mem hjl
    obtain ⟨ej, hvj⟩ := hpow (vs.getD j 0) hmem
    rw [hvj] at hbj hc
    have hee : ej = e := by
      by_contra hne
      rw [Nat.testBit_two_pow_of_ne hne] at hbj
      exact Bool.noConfusion hbj
    rw [← hee]
    exact (and_two_pow_ne_zero _ ej).mp hc
  · intro hye
    have hidxy : g * (8 * k) + b < y.length := by
      rw [hylen]
      calc g * (8 * k) + b < g * (8 * k) + 8 * k := by omega
      _ = (g + 1) * (8 * k) := by ring
      _ ≤ m * (8 * k) := Nat.mul_le_mul_right _ (by omega)
    have hmemy : y.getD (g * (8 * k) + b) 0 ∈ y := by
      rw [List.getD_eq_getElem _ _ hidxy]
      exact List.getElem_mem hidxy
    have hpm : (2:Nat) ^ e ∈ vs := hcov _ hmemy e hye
    obtain ⟨j, hjl, hvj⟩ := List.getElem_of_mem hpm
    have hgd : vs.getD j 0 = 2 ^ e := by
      rw [List.getD_eq_getElem _ _ hjl, hvj]
    refine ⟨j, by omega, ?_⟩
    rw [fpVal, testBit_if_val]
    constructor
    · have hidx : (g * P + j) * k + b / 8 = P * k * g + (j * k + b / 8) := by
        ring
      rw [hidx, hpl j (by omega) (b / 8) (by omega), and_one_testBit,
        tpByte_testBit y vs msb P k g j b hb, hgd]
      exact (and_two_pow_ne_zero _ e).mpr hye
    · rw [hgd]
      exact Nat.testBit_two_pow_self

/-- Two buffers of equal length with equal reads at every index are
equal. -/
theorem list_eq_of_getD (l1 l2 : List Nat) (hlen : l1.length = l2.length)
    (h : ∀ i, i < l1.length → l1.getD i 0 = l2.getD i 0) : l1 = l2 := by
  apply List.ext_getElem hlen
  intro i h1 h2
  have := h i h1
  rwa [List.getD_eq_getElem _ _ h1, List.getD_eq_getElem _ _ h2] at this

/-- Byte-buffer direction of the planar round trip:
`toPlanar (fromPlanar x) = x` for a buffer of `m` whole plane groups with
`planeWidth = 8*k`. -/
theorem planar_roundtrip_x (x : List Nat) (P k m : Nat) (vs : List Nat)
    (msb : Bool) (hP : 0 < P) (hk : 0 < k) (hm : 0 < m)
    (hxlen : x.length = m * (P * k))
    (hx : ∀ v ∈ x, v < 256)
    (hpow : ∀ v ∈ vs, ∃ e, v = 2 ^ e) (hnd : vs.Nodup)
    (hPl : vs.length = P) :
    (fromPlanar x P (8 * k) vs msb).bind
      (fun lin => toPlanar lin P (8 * k) vs msb) = Except.ok x := by
  obtain ⟨s2, slen, sdone, szero⟩ :=
    fromPlanar_state x P k m vs msb hP hk m (le_refl m)
  rw [fromPlanar_eval x P k m vs msb hP hk hm hxlen]
  set lin := ((List.range (m * P)).foldl (fpChunk x P k (8 * k) vs msb)
    (List.replicate (m * (8 * k)) 0, 0)).1 with hlin
  show toPlanar lin P (8 * k) vs msb = Except.ok x
  rw [toPlanar_eval lin P k m vs msb hP hk hm slen]
  obtain ⟨t2, tlen, tdone, tzero⟩ :=
    toPlanar_state lin P k m vs msb hP hk m (le_refl m)
  congr 1
  apply list_eq_of_getD _ _ (by rw [tlen, hxlen])
  intro i hi
  rw [tlen] at hi
  have hPk : 0 < P * k := Nat.mul_pos hP hk
  have hdm1 := Nat.div_add_mod i (P * k)
  have hdm2 := Nat.div_add_mod (i % (P * k)) k
  set g := i / (P * k) with hgdef
  set rem := i % (P * k) with hremdef
  set j := rem / k with hjdef
  set t := rem % k with htdef
  have hgm : g < m := by
    rw [hgdef]
    rw [Nat.div_lt_iff_lt_mul hPk]
    omega
  have hrem : rem < P * k := Nat.mod_lt _ hPk
  have hjP : j < P := by
    rw [hjdef]
    rw [Nat.div_lt_iff_lt_mul hk]
    omega
  have htk : t < k := Nat.mod_lt _ hk
  have hcm1 : (P * k) * g = P * k * g := by ring
  have hcm2 : k * j = j * k := by ring
  have hi2 : i = P * k * g + (j * k + t) := by omega
  rw [hi2, tdone g hgm j hjP t htk,
    tpByte_of_fpPix x vs msb P k m g j t lin hk hgm hjP htk hxlen hx hpow
      hnd hPl (fun b hb => sdone g hgm b hb)]
  congr 1
  ring

/-- Pixel-buffer direction of the planar round trip:
`fromPlanar (toPlanar y) = y` for a buffer of `m` whole pixel rows whose
pixels only use bits present in `planeValues`. -/
theorem planar_roundtrip_y (y : List Nat) (P k m : Nat) (vs : List Nat)
    (msb : Bool) (hP : 0 < P) (hk : 0 < k) (hm : 0 < m)
    (hylen : y.length = m * (8 * k))
    (hcov : ∀ p ∈ y, ∀ e, p.testBit e = true → 2 ^ e ∈ vs)
    (hpow : ∀ v ∈ vs, ∃ e, v = 2 ^ e) (hnd : vs.Nodup)
    (hPl : vs.length = P) :
    (toPlanar y P (8 * k) vs msb).bind
      (fun pl => fromPlanar pl P (8 * k) vs msb) = Except.ok y := by
  obtain ⟨t2, tlen, tdone, tzero⟩ :=
    toPlanar_state y P k m vs msb hP hk m (le_refl m)
  rw [toPlanar_eval y P k m vs msb hP hk hm hylen]
  set pl := ((List.range (m * (8 * k))).foldl (tpPixel y P k (8 * k) vs msb)
    (List.replicate (m * (P * k)) 0, 0)).1 with hpldef
  show fromPlanar pl P (8 * k) vs msb = Except.ok y
  rw [fromPlanar_eval pl P k m vs msb hP hk hm tlen]
  obtain ⟨s2, slen, sdone, szero⟩ :=
    fromPlanar_state pl P k m vs msb hP hk m (le_refl m)
  congr 1
  apply list_eq_of_getD _ _ (by rw [slen, hylen])
  intro i hi
  rw [slen] at hi
  have h8k : 0 < 8 * k := by omega
  have hdm := Nat.div_add_mod i (8 * k)
  set g := i / (8 * k) with hgdef
  set b := i % (8 * k) with hbdef
  have hgm : g < m := by
    rw [hgdef, Nat.div_lt_iff_lt_mul h8k]
    omega
  have hbk : b < 8 * k := Nat.mod_lt _ h8k
  have hi2 : i = 8 * k * g + b := by omega
  rw [hi2, sdone g hgm b hbk,
    fpPix_of_tpByte y vs msb P k m g b pl hk hgm hbk hylen hcov hpow hnd
      hPl (fun j hj t ht => tdone g hgm j hj t ht)]
  congr 1
  ring

/-- C3 (corrected): planar round trip.  For `planeCount = P ≥ 1`,
`planeWidth` a positive multiple of 8 (`8*k`, `k ≥ 1`), and `planeValues`
a duplicate-free list of `P` single-bit values, the two directions are
mutually inverse: `toPlanar` after `fromPlanar` returns the original byte
buffer `x` (any byte values, length `m` plane groups, `m ≥ 1`), and
`fromPlanar` after `toPlanar` returns the original pixel buffer `y`
(length `m` rows, pixels using only bits of `planeValues`).  The claim's
original quantification over every `planeWidth` that merely rounds to a
positive byte width is refuted by `planar_roundtrip_counterexample`
(`planeWidth = 4` loses the padding bits of each partial byte). -/
theorem planar_roundtrip (P k m : Nat) (vs : List Nat) (msb : Bool)
    (x y : List Nat)
    (hP : 0 < P) (hk : 0 < k) (hm : 0 < m)
    (hpow : ∀ v ∈ vs, ∃ e, v = 2 ^ e) (hnd : vs.Nodup)
    (hPl : vs.length = P)
    (hxlen : x.length = m * (P * k)) (hx : ∀ v ∈ x, v < 256)
    (hylen : y.length = m * (8 * k))
    (hcov : ∀ p ∈ y, ∀ e, p.testBit e = true → 2 ^ e ∈ vs) :
    (fromPlanar x P (8 * k) vs msb).bind
      (fun lin => toPlanar lin P (8 * k) vs msb) = Except.ok x ∧
    (toPlanar y P (8 * k) vs msb).bind
      (fun pl => fromPlanar pl P (8 * k) vs msb) = Except.ok y :=
  ⟨planar_roundtrip_x x P k m vs msb hP hk hm hxlen hx hpow hnd hPl,
   planar_roundtrip_y y P k m vs msb hP hk hm hylen hcov hpow hnd hPl⟩

/-- Witness for C3: both round-trip directions at `planeCount = 2`,
`planeWidth = 8`, `planeValues = [1, 2]`, MSB order, with a 2-byte planar
buffer and an 8-pixel linear buffer. -/
theorem planar_roundtrip_witness :
    (fromPlanar [172, 53] 2 (8 * 1) [1, 2] true).bind
      (fun lin => toPlanar lin 2 (8 * 1) [1, 2] true) =
        Except.ok [172, 53] ∧
    (toPlanar [1, 2, 3, 0, 1, 2, 3, 0] 2 (8 * 1) [1, 2] true).bind
      (fun pl => fromPlanar pl 2 (8 * 1) [1, 2] true) =
        Except.ok [1, 2, 3, 0, 1, 2, 3, 0] := by
  refine planar_roundtrip 2 1 1 [1, 2] true [172, 53] [1, 2, 3, 0, 1, 2, 3, 0]
    (by decide) (by decide) (by decide) ?_ (by decide) (by decide)
    (by decide) (by decide) (by decide) ?_
  · intro v hv
    rcases List.mem_cons.mp hv with rfl | hv2
    · exact ⟨0, rfl⟩
    · rcases List.mem_cons.mp hv2 with rfl | hv3
      · exact ⟨1, rfl⟩
      · exact absurd hv3 (List.not_mem_nil v)
  · intro p hp e he
    have hp4 : p < 4 := by fin_cases hp <;> decide
    have he2 : e < 2 := by
      by_contra hge
      have h4 : (4:Nat) ≤ 2 ^ e := by
        calc (4:Nat) = 2 ^ 2 := by norm_num
        _ ≤ 2 ^ e := Nat.pow_le_pow_right (by omega) (by omega)
      rw [Nat.testBit_eq_false_of_lt (lt_of_lt_of_le hp4 h4)] at he
      exact Bool.noConfusion he
    interval_cases e <;> decide

end GameGraphics
